import Mathlib

/-!
Verification of the path-addressed JSON document model of the json_editor
repository: the PathKey codec and Value accessors (src/pathUtils.ts), the
schema normalizer (schema.ts), the editor panel session operations
updateValue and mutateArray (editorPanel.ts), and the webview visibility
pruning functions.  JavaScript values are embedded as an inductive tree,
JavaScript numbers as rationals together with a NaN marker, and the
imperative in-place mutations as functions returning the updated state.
-/

/-- Embedding of a JavaScript number: a finite value (modelled as a
rational, which covers every value produced by parsing decimal literals)
or NaN. -/
inductive JNum where
  | fin (q : ℚ)
  | nan
deriving DecidableEq

/-- Embedding of a JSON value tree: the universal node type manipulated by
the editor (null, booleans, numbers, strings, arrays, objects).  Objects
are ordered association lists, mirroring JavaScript property order; keys
are unique in every tree produced by JSON parsing. -/
inductive Value where
  | null
  | bool (b : Bool)
  | num (n : JNum)
  | str (s : String)
  | arr (items : List Value)
  | obj (fields : List (String × Value))

/-- PathSegment from src/pathUtils.ts: a string key or an array index.
The index is a natural number; the claims under verification only concern
non-negative integer segments. -/
inductive PathSegment where
  | str (s : String)
  | idx (n : Nat)
deriving DecidableEq

/-- Test for typeof current being a non-null object (an array or an
object), the container check used by the accessors. -/
def Value.isContainer : Value → Bool
  | .arr _ => true
  | .obj _ => true
  | _ => false

/-! Decimal rendering of natural numbers, as performed by JavaScript
string interpolation of a non-negative integer.  Implemented with an
explicit fuel argument so that the kernel can evaluate it on literals;
the fuel n+1 always suffices because the argument shrinks by a factor of
ten at every step. -/

/-- Character of a single decimal digit d < 10. -/
def digitChar (d : Nat) : Char := Char.ofNat (48 + d)

/-- Fuelled decimal rendering; digits most significant first. -/
def natDecimalAux : Nat → Nat → List Char
  | 0, _ => []
  | f + 1, n =>
    if n < 10 then [digitChar n]
    else natDecimalAux f (n / 10) ++ [digitChar (n % 10)]

/-- Decimal digit list of a natural number, most significant first. -/
def natDecimal (n : Nat) : List Char := natDecimalAux (n + 1) n

/-- Decimal string of a natural number (JavaScript ToString on a
non-negative integer). -/
def natRepr (n : Nat) : String := String.mk (natDecimal n)

/-- Numeric value of a decimal digit character. -/
def digitVal (c : Char) : Nat := c.toNat - 48

/-- Base-ten value of a digit list, most significant first. -/
def digitsVal (cs : List Char) : Nat := cs.foldl (fun a c => 10 * a + digitVal c) 0

theorem natDecimalAux_succ (f n : Nat) :
    natDecimalAux (f + 1) n = if n < 10 then [digitChar n]
      else natDecimalAux f (n / 10) ++ [digitChar (n % 10)] := by
  simp [natDecimalAux]

theorem natDecimalAux_congr : ∀ n f g, n < f → n < g →
    natDecimalAux f n = natDecimalAux g n := by
  intro n
  induction n using Nat.strong_induction_on with
  | _ n ih =>
    intro f g hf hg
    match f, g with
    | f' + 1, g' + 1 =>
      rw [natDecimalAux_succ, natDecimalAux_succ]
      by_cases h10 : n < 10
      · simp [h10]
      · have hn0 : 0 < n := by omega
        have hdiv : n / 10 < n := Nat.div_lt_self hn0 (by omega)
        rw [if_neg h10, if_neg h10, ih (n / 10) hdiv f' g' (by omega) (by omega)]

theorem natDecimal_eq (n : Nat) :
    natDecimal n = if n < 10 then [digitChar n]
      else natDecimal (n / 10) ++ [digitChar (n % 10)] := by
  by_cases h10 : n < 10
  · simp [natDecimal, natDecimalAux_succ, h10]
  · have hn0 : 0 < n := by omega
    have hdiv : n / 10 < n := Nat.div_lt_self hn0 (by omega)
    unfold natDecimal
    rw [natDecimalAux_succ, if_neg h10, if_neg h10,
      natDecimalAux_congr (n / 10) n (n / 10 + 1) (by omega) (by omega)]

theorem digitChar_toNat {d : Nat} (h : d < 10) : (digitChar d).toNat = 48 + d := by
  interval_cases d <;> decide

theorem digitVal_digitChar {d : Nat} (h : d < 10) : digitVal (digitChar d) = d := by
  simp [digitVal, digitChar_toNat h]

theorem digitChar_isDigit {d : Nat} (h : d < 10) : (digitChar d).isDigit = true := by
  interval_cases d <;> decide

theorem digitsVal_append (cs : List Char) (c : Char) :
    digitsVal (cs ++ [c]) = 10 * digitsVal cs + digitVal c := by
  simp [digitsVal, List.foldl_append]

theorem natDecimal_ne_nil (n : Nat) : natDecimal n ≠ [] := by
  rw [natDecimal_eq]
  split <;> simp

theorem natDecimal_all_digits (n : Nat) : ∀ c ∈ natDecimal n, c.isDigit = true := by
  induction n using Nat.strong_induction_on with
  | _ n ih =>
    rw [natDecimal_eq]
    by_cases h10 : n < 10
    · simp only [if_pos h10, List.mem_singleton]
      rintro c rfl
      exact digitChar_isDigit h10
    · have hn0 : 0 < n := by omega
      have hdiv : n / 10 < n := Nat.div_lt_self hn0 (by omega)
      simp only [if_neg h10, List.mem_append, List.mem_singleton]
      rintro c (hc | rfl)
      · exact ih _ hdiv c hc
      · exact digitChar_isDigit (Nat.mod_lt n (by omega))

theorem digitsVal_natDecimal (n : Nat) : digitsVal (natDecimal n) = n := by
  induction n using Nat.strong_induction_on with
  | _ n ih =>
    rw [natDecimal_eq]
    by_cases h10 : n < 10
    · simp [if_pos h10, digitsVal, digitVal_digitChar h10]
    · have hn0 : 0 < n := by omega
      have hdiv : n / 10 < n := Nat.div_lt_self hn0 (by omega)
      rw [if_neg h10, digitsVal_append, ih _ hdiv,
        digitVal_digitChar (Nat.mod_lt n (by omega))]
      omega

theorem natDecimal_head_ne_zero {n : Nat} (hn : 0 < n) :
    ∀ c, (natDecimal n).head? = some c → c ≠ '0' := by
  induction n using Nat.strong_induction_on with
  | _ n ih =>
    intro c hc
    rw [natDecimal_eq] at hc
    by_cases h10 : n < 10
    · rw [if_pos h10] at hc
      simp only [List.head?_cons, Option.some.injEq] at hc
      subst hc
      intro h
      have : (48 + n) = 48 := by
        have := congrArg Char.toNat h
        rw [digitChar_toNat h10] at this
        simpa using this
      omega
    · rw [if_neg h10] at hc
      have hn0 : 0 < n := by omega
      have hdiv : n / 10 < n := Nat.div_lt_self hn0 (by omega)
      have hd0 : 0 < n / 10 := by
        have := Nat.div_le_div_right (c := 10) (Nat.le_of_not_lt h10)
        simpa using this
      rw [List.head?_append_of_ne_nil _ (natDecimal_ne_nil _)] at hc
      exact ih _ hdiv hd0 c hc

/-! PathKey codec, from src/pathUtils.ts. -/

/-- Character class of the first regex alternative of parsePathKey:
any character other than a dot or a square bracket. -/
def isPlainChar (c : Char) : Bool := !(c == '.' || c == '[' || c == ']')

/-- Rendering of one path segment at a given position in the list, as in
buildPathKey: an index becomes a bracketed decimal with no separator, a
string segment is bare at position zero and dot-prefixed afterwards. -/
def segRepr (index : Nat) : PathSegment → String
  | .idx n => "[" ++ natRepr n ++ "]"
  | .str s => if index = 0 then s else "." ++ s

/-- Embedding of buildPathKey: the empty path encodes to the empty string,
otherwise the indexed renderings of the segments are joined. -/
def buildPathKey (segments : List PathSegment) : String :=
  if segments.length = 0 then "" else
    String.join (segments.mapIdx fun i seg => segRepr i seg)

/-- Fuelled tokenizer embedding the global regex match of parsePathKey:
at each position the pattern of one-or-more non-dot-non-bracket characters
is tried first (greedy), then a bracketed digit run; on failure the scan
advances one character.  Each step consumes at least one character, so
fuel length+1 always suffices. -/
def tokenizeAux : Nat → List Char → List (List Char)
  | 0, _ => []
  | _ + 1, [] => []
  | f + 1, c :: rest =>
    if isPlainChar c then
      (c :: rest.takeWhile isPlainChar) :: tokenizeAux f (rest.dropWhile isPlainChar)
    else if c = '[' then
      if rest.takeWhile Char.isDigit ≠ [] ∧
          (rest.dropWhile Char.isDigit).head? = some ']' then
        ('[' :: (rest.takeWhile Char.isDigit ++ [']'])) ::
          tokenizeAux f (rest.dropWhile Char.isDigit).tail
      else tokenizeAux f rest
    else tokenizeAux f rest

/-- Tokenizer at adequate fuel. -/
def tokenize (cs : List Char) : List (List Char) := tokenizeAux (cs.length + 1) cs

/-- Embedding of Number.parseInt on base ten for the digit-run strings that
occur as the inner text of bracketed tokens: the maximal leading digit run
is evaluated in base ten, and an empty run yields NaN, modelled as none. -/
def parseIntDigits (cs : List Char) : Option Nat :=
  match cs.takeWhile Char.isDigit with
  | [] => none
  | ds => some (digitsVal ds)

/-- Mapping of one matched token to a PathSegment, as in parsePathKey: a
token that starts with an opening and ends with a closing bracket is
parsed as an integer index, with the defensive fallback keeping the
literal token as a string; every other token is a string segment. -/
def parseToken (t : List Char) : PathSegment :=
  if t.head? = some '[' ∧ t.getLast? = some ']' then
    match parseIntDigits ((t.drop 1).dropLast) with
    | some n => .idx n
    | none => .str (String.mk t)
  else .str (String.mk t)

/-- Embedding of parsePathKey: the empty string decodes to the empty path;
otherwise the tokens of the regex scan are mapped to segments. -/
def parsePathKey (pathKey : String) : List PathSegment :=
  if pathKey = "" then [] else (tokenize pathKey.data).map parseToken

/-! Round-trip property of the codec (claim C1). -/

/-- Character allowed in the identifier-like string segments covered by
the round-trip property: letters, digits, underscore. -/
def goodChar (c : Char) : Bool := c.isAlphanum || c == '_'

/-- Path segments covered by the round-trip claim: arbitrary non-negative
indices, and non-empty identifier-like string segments. -/
def goodSeg : PathSegment → Bool
  | .idx _ => true
  | .str s => !s.data.isEmpty && s.data.all goodChar

/-- Character list produced for a segment in non-initial position. -/
def encTail : PathSegment → List Char
  | .str s => '.' :: s.data
  | .idx n => '[' :: (natDecimal n ++ [']'])

/-- Token the regex scan recovers for a segment. -/
def tokenOf : PathSegment → List Char
  | .str s => s.data
  | .idx n => '[' :: (natDecimal n ++ [']'])

/-- Concatenated encoding of the non-initial segments. -/
def streamTail (segs : List PathSegment) : List Char := (segs.map encTail).flatten

/-- Token boundary: the remainder of the scan starts with a dot or an
opening bracket, or is empty. -/
def boundary : List Char → Prop
  | [] => True
  | c :: _ => c = '.' ∨ c = '['

theorem goodChar_plain {c : Char} (h : goodChar c = true) : isPlainChar c = true := by
  have h3 : c ≠ '.' ∧ c ≠ '[' ∧ c ≠ ']' := by
    refine ⟨?_, ?_, ?_⟩ <;> rintro rfl <;> exact absurd h (by decide)
  simp [isPlainChar, h3.1, h3.2.1, h3.2.2]

theorem isDigit_plain {c : Char} (h : c.isDigit = true) : isPlainChar c = true := by
  have h3 : c ≠ '.' ∧ c ≠ '[' ∧ c ≠ ']' := by
    refine ⟨?_, ?_, ?_⟩ <;> rintro rfl <;> exact absurd h (by decide)
  simp [isPlainChar, h3.1, h3.2.1, h3.2.2]

theorem takeWhile_append_all {p : Char → Bool} {l : List Char} (t : List Char)
    (h : ∀ c ∈ l, p c = true) : (l ++ t).takeWhile p = l ++ t.takeWhile p := by
  induction l with
  | nil => rfl
  | cons c cs ih =>
    have hc := h c (by simp)
    have ihh := ih fun x hx => h x (by simp [hx])
    simp [List.takeWhile_cons, hc, ihh]

theorem dropWhile_append_all {p : Char → Bool} {l : List Char} (t : List Char)
    (h : ∀ c ∈ l, p c = true) : (l ++ t).dropWhile p = t.dropWhile p := by
  induction l with
  | nil => rfl
  | cons c cs ih =>
    have hc := h c (by simp)
    have ihh := ih fun x hx => h x (by simp [hx])
    simp [List.dropWhile_cons, hc, ihh]

theorem takeWhile_boundary {t : List Char} (h : boundary t) :
    t.takeWhile isPlainChar = [] := by
  cases t with
  | nil => rfl
  | cons c cs =>
    rcases h with rfl | rfl <;> simp [List.takeWhile_cons, isPlainChar]

theorem dropWhile_boundary {t : List Char} (h : boundary t) :
    t.dropWhile isPlainChar = t := by
  cases t with
  | nil => rfl
  | cons c cs =>
    rcases h with rfl | rfl <;> simp [List.dropWhile_cons, isPlainChar]

theorem tokenizeAux_cons (f : Nat) (c : Char) (rest : List Char) :
    tokenizeAux (f + 1) (c :: rest) =
      if isPlainChar c then
        (c :: rest.takeWhile isPlainChar) :: tokenizeAux f (rest.dropWhile isPlainChar)
      else if c = '[' then
        if rest.takeWhile Char.isDigit ≠ [] ∧
            (rest.dropWhile Char.isDigit).head? = some ']' then
          ('[' :: (rest.takeWhile Char.isDigit ++ [']'])) ::
            tokenizeAux f (rest.dropWhile Char.isDigit).tail
        else tokenizeAux f rest
      else tokenizeAux f rest := by
  rfl

theorem dropWhile_tail_length_lt {p : Char → Bool} {rest : List Char}
    (hne : rest.takeWhile p ≠ [])
    (hh : (rest.dropWhile p).head? = some ']') :
    (rest.dropWhile p).tail.length < rest.length := by
  cases hq : rest.dropWhile p with
  | nil => rw [hq] at hh; simp at hh
  | cons x xs =>
    have hlen2 := congrArg List.length (List.takeWhile_append_dropWhile p rest)
    have hpos : 0 < (rest.takeWhile p).length := List.length_pos.mpr hne
    rw [hq] at hlen2
    simp only [hq, List.tail_cons]
    simp at hlen2
    omega

theorem tokenizeAux_congr_core : ∀ (n : Nat) (cs : List Char), cs.length ≤ n →
    ∀ f g, cs.length < f → cs.length < g → tokenizeAux f cs = tokenizeAux g cs := by
  intro n
  induction n with
  | zero =>
    intro cs hcs f g hf hg
    match f, g with
    | f' + 1, g' + 1 =>
      cases cs with
      | nil => rfl
      | cons c rest => simp at hcs
  | succ n ih =>
    intro cs hcs f g hf hg
    match f, g with
    | f' + 1, g' + 1 =>
      cases cs with
      | nil => rfl
      | cons c rest =>
        have hr : rest.length ≤ n := by simp at hcs; omega
        have hlen : rest.length < f' ∧ rest.length < g' := by
          simp at hf hg; omega
        rw [tokenizeAux_cons, tokenizeAux_cons]
        by_cases hp : isPlainChar c = true
        · rw [if_pos hp, if_pos hp]
          have hd : (rest.dropWhile isPlainChar).length ≤ rest.length :=
            (List.dropWhile_sublist _).length_le
          rw [ih (rest.dropWhile isPlainChar) (by omega) f' g' (by omega) (by omega)]
        · rw [if_neg hp, if_neg hp]
          by_cases hb : c = '['
          · rw [if_pos hb, if_pos hb]
            by_cases hm : rest.takeWhile Char.isDigit ≠ [] ∧
                (rest.dropWhile Char.isDigit).head? = some ']'
            · rw [if_pos hm, if_pos hm]
              have htl := dropWhile_tail_length_lt hm.1 hm.2
              rw [ih (rest.dropWhile Char.isDigit).tail (by omega) f' g'
                (by omega) (by omega)]
            · rw [if_neg hm, if_neg hm]
              rw [ih rest hr f' g' (by omega) (by omega)]
          · rw [if_neg hb, if_neg hb]
            rw [ih rest hr f' g' (by omega) (by omega)]

theorem tokenizeAux_congr (cs : List Char) (f g : Nat)
    (hf : cs.length < f) (hg : cs.length < g) :
    tokenizeAux f cs = tokenizeAux g cs :=
  tokenizeAux_congr_core cs.length cs le_rfl f g hf hg

theorem tokenize_cons (c : Char) (rest : List Char) :
    tokenize (c :: rest) =
      if isPlainChar c then
        (c :: rest.takeWhile isPlainChar) :: tokenize (rest.dropWhile isPlainChar)
      else if c = '[' then
        if rest.takeWhile Char.isDigit ≠ [] ∧
            (rest.dropWhile Char.isDigit).head? = some ']' then
          ('[' :: (rest.takeWhile Char.isDigit ++ [']'])) ::
            tokenize (rest.dropWhile Char.isDigit).tail
        else tokenize rest
      else tokenize rest := by
  show tokenizeAux ((c :: rest).length + 1) (c :: rest) = _
  rw [show (c :: rest).length + 1 = rest.length + 1 + 1 by simp, tokenizeAux_cons]
  by_cases hp : isPlainChar c = true
  · rw [if_pos hp, if_pos hp,
      tokenizeAux_congr (rest.dropWhile isPlainChar) (rest.length + 1)
        ((rest.dropWhile isPlainChar).length + 1)
        (Nat.lt_succ_of_le (List.dropWhile_sublist _).length_le) (Nat.lt_succ_self _)]
    rfl
  · rw [if_neg hp, if_neg hp]
    by_cases hb : c = '['
    · rw [if_pos hb, if_pos hb]
      by_cases hm : rest.takeWhile Char.isDigit ≠ [] ∧
          (rest.dropWhile Char.isDigit).head? = some ']'
      · have htl := dropWhile_tail_length_lt hm.1 hm.2
        rw [if_pos hm, if_pos hm,
          tokenizeAux_congr (rest.dropWhile Char.isDigit).tail (rest.length + 1)
            ((rest.dropWhile Char.isDigit).tail.length + 1)
            (by omega) (Nat.lt_succ_self _)]
        rfl
      · rw [if_neg hm, if_neg hm]
        rfl
    · rw [if_neg hb, if_neg hb]
      rfl

theorem takeWhile_all_self {p : Char → Bool} {l : List Char}
    (h : ∀ c ∈ l, p c = true) : l.takeWhile p = l := by
  induction l with
  | nil => rfl
  | cons c cs ih =>
    have hc := h c (by simp)
    have ihh := ih fun x hx => h x (by simp [hx])
    simp [List.takeWhile_cons, hc, ihh]

theorem tok_skip_dot (t : List Char) : tokenize ('.' :: t) = tokenize t := by
  rw [tokenize_cons]
  rw [if_neg (by decide), if_neg (by decide)]

theorem tok_str_starts (s : String) (t : List Char)
    (hgood : goodSeg (.str s) = true) (hb : boundary t) :
    tokenize (s.data ++ t) = s.data :: tokenize t := by
  have hall : ∀ c ∈ s.data, goodChar c = true := by
    have := (Bool.and_eq_true _ _).mp hgood |>.2
    simpa [List.all_eq_true] using this
  have hplain : ∀ c ∈ s.data, isPlainChar c = true :=
    fun c hc => goodChar_plain (hall c hc)
  cases hd : s.data with
  | nil =>
    exfalso
    have := (Bool.and_eq_true _ _).mp hgood |>.1
    rw [hd] at this
    simp at this
  | cons c cs =>
    rw [hd] at hplain
    have hc : isPlainChar c = true := hplain c (by simp)
    have hcs : ∀ x ∈ cs, isPlainChar x = true := fun x hx => hplain x (by simp [hx])
    rw [List.cons_append, tokenize_cons, if_pos hc,
      takeWhile_append_all t hcs, dropWhile_append_all t hcs,
      takeWhile_boundary hb, dropWhile_boundary hb, List.append_nil]

theorem tok_idx_starts (n : Nat) (t : List Char) :
    tokenize (('[' :: (natDecimal n ++ [']'])) ++ t) =
      ('[' :: (natDecimal n ++ [']'])) :: tokenize t := by
  have hshape : ('[' :: (natDecimal n ++ [']'])) ++ t =
      '[' :: (natDecimal n ++ (']' :: t)) := by simp
  rw [hshape, tokenize_cons, if_neg (by decide), if_pos rfl]
  have hdig : ∀ c ∈ natDecimal n, c.isDigit = true := natDecimal_all_digits n
  have htake : (natDecimal n ++ (']' :: t)).takeWhile Char.isDigit = natDecimal n := by
    rw [takeWhile_append_all _ hdig]
    simp [List.takeWhile_cons]
  have hdrop : (natDecimal n ++ (']' :: t)).dropWhile Char.isDigit = ']' :: t := by
    rw [dropWhile_append_all _ hdig]
    simp [List.dropWhile_cons]
  rw [if_pos (by rw [htake, hdrop]; exact ⟨natDecimal_ne_nil n, rfl⟩), htake, hdrop]
  simp

theorem boundary_streamTail (segs : List PathSegment) : boundary (streamTail segs) := by
  cases segs with
  | nil => trivial
  | cons s rest =>
    show boundary ((encTail s :: rest.map encTail).flatten)
    rw [List.flatten_cons]
    cases s with
    | str s0 => exact Or.inl rfl
    | idx n => exact Or.inr rfl

theorem streamTail_cons (s : PathSegment) (rest : List PathSegment) :
    streamTail (s :: rest) = encTail s ++ streamTail rest := by
  show ((encTail s :: rest.map encTail)).flatten = _
  rw [List.flatten_cons]
  rfl

theorem tok_stream : ∀ segs : List PathSegment, (∀ x ∈ segs, goodSeg x = true) →
    tokenize (streamTail segs) = segs.map tokenOf := by
  intro segs h
  induction segs with
  | nil => rfl
  | cons s rest ih =>
    have hrest := ih fun x hx => h x (by simp [hx])
    rw [streamTail_cons]
    cases s with
    | str s0 =>
      show tokenize ('.' :: (s0.data ++ streamTail rest)) = _
      rw [tok_skip_dot,
        tok_str_starts s0 _ (h _ (by simp)) (boundary_streamTail rest), hrest]
      rfl
    | idx n =>
      show tokenize (('[' :: (natDecimal n ++ [']'])) ++ streamTail rest) = _
      rw [tok_idx_starts, hrest]
      rfl

theorem segRepr_pos (i : Nat) (hi : i ≠ 0) (seg : PathSegment) :
    segRepr i seg = segRepr 1 seg := by
  cases seg <;> simp [segRepr, hi]

theorem mapIdx_segRepr_shift (rest : List PathSegment) : ∀ k : Nat,
    rest.mapIdx (fun i seg => segRepr (i + k + 1) seg) = rest.map (segRepr 1) := by
  induction rest with
  | nil => intro k; rfl
  | cons s rs ih =>
    intro k
    rw [List.mapIdx_cons]
    rw [show (fun i => (fun i seg => segRepr (i + k + 1) seg) (i + 1)) =
      (fun i seg => segRepr (i + (k + 1) + 1) seg) by
        funext i seg
        show segRepr (i + 1 + k + 1) seg = segRepr (i + (k + 1) + 1) seg
        rw [show i + 1 + k + 1 = i + (k + 1) + 1 by omega]]
    rw [ih (k + 1), segRepr_pos (0 + k + 1) (by omega) s]
    rfl

theorem join_data_aux (l : List String) : ∀ a : String,
    (l.foldl (fun r s => r ++ s) a).data = a.data ++ (l.map String.data).flatten := by
  induction l with
  | nil => intro a; simp
  | cons s rs ih =>
    intro a
    rw [List.foldl_cons, ih (a ++ s)]
    simp

theorem join_data (l : List String) :
    (String.join l).data = (l.map String.data).flatten := by
  show (l.foldl (fun r s => r ++ s) "").data = _
  rw [join_data_aux]
  rfl

theorem buildPathKey_cons_data (s : PathSegment) (rest : List PathSegment) :
    (buildPathKey (s :: rest)).data = tokenOf s ++ streamTail rest := by
  unfold buildPathKey
  rw [if_neg (by simp)]
  rw [List.mapIdx_cons]
  rw [show (fun i => (fun i seg => segRepr i seg) (i + 1)) =
    (fun i seg => segRepr (i + 0 + 1) seg) by funext i seg; rw [Nat.add_zero]]
  rw [mapIdx_segRepr_shift rest 0, join_data, List.map_cons, List.flatten_cons]
  have hhead : (segRepr 0 s).data = tokenOf s := by
    cases s with
    | str s0 => simp [segRepr, tokenOf]
    | idx n => simp [segRepr, tokenOf, natRepr]
  have htail : ((rest.map (segRepr 1)).map String.data).flatten = streamTail rest := by
    rw [List.map_map]
    have : (String.data ∘ segRepr 1) = encTail := by
      funext seg
      cases seg with
      | str s0 => simp [segRepr, encTail]
      | idx n => simp [segRepr, encTail, natRepr]
    rw [this]
    rfl
  rw [hhead, htail]

theorem parseIntDigits_natDecimal (n : Nat) : parseIntDigits (natDecimal n) = some n := by
  unfold parseIntDigits
  rw [takeWhile_all_self (natDecimal_all_digits n)]
  cases hnd : natDecimal n with
  | nil => exact absurd hnd (natDecimal_ne_nil n)
  | cons d ds =>
    show some (digitsVal (d :: ds)) = some n
    rw [← hnd, digitsVal_natDecimal]

theorem parseToken_tokenOf (seg : PathSegment) (h : goodSeg seg = true) :
    parseToken (tokenOf seg) = seg := by
  cases seg with
  | str s =>
    obtain ⟨l⟩ := s
    show parseToken l = _
    have hne : l ≠ [] := by
      have := (Bool.and_eq_true _ _).mp h |>.1
      simpa using this
    have hall : ∀ c ∈ l, goodChar c = true := by
      have := (Bool.and_eq_true _ _).mp h |>.2
      simpa [List.all_eq_true] using this
    cases hl : l with
    | nil => exact absurd hl hne
    | cons c cs =>
      unfold parseToken
      rw [if_neg]
      rintro ⟨h1, _⟩
      simp only [List.head?_cons, Option.some.injEq] at h1
      have hc := hall c (by rw [hl]; simp)
      rw [h1] at hc
      exact absurd hc (by decide)
  | idx n =>
    show parseToken ('[' :: (natDecimal n ++ [']'])) = _
    unfold parseToken
    rw [if_pos]
    · rw [show ('[' :: (natDecimal n ++ [']'])).drop 1 = natDecimal n ++ [']'] by simp,
        List.dropLast_concat, parseIntDigits_natDecimal]
    · constructor
      · rfl
      · rw [show ('[' :: (natDecimal n ++ [']'])) = ('[' :: natDecimal n) ++ [']'] by simp,
          List.getLast?_concat]

/-- C1: PathKey round-trip.  For every Path whose segments are either
non-negative integers or non-empty strings of characters matching
A-Z a-z 0-9 underscore, decoding the encoding returns the original path,
and decoding the empty string returns the empty path. -/
theorem claim_C1_pathkey_roundtrip :
    parsePathKey "" = [] ∧
    ∀ p : List PathSegment, (∀ s ∈ p, goodSeg s = true) →
      parsePathKey (buildPathKey p) = p := by
  refine ⟨rfl, ?_⟩
  intro p hp
  cases p with
  | nil => rfl
  | cons s rest =>
    have hdata := buildPathKey_cons_data s rest
    have htok : tokenize (buildPathKey (s :: rest)).data = (s :: rest).map tokenOf := by
      rw [hdata]
      cases s with
      | str s0 =>
        show tokenize (s0.data ++ streamTail rest) = _
        rw [tok_str_starts s0 _ (hp _ (by simp)) (boundary_streamTail rest),
          tok_stream rest (fun x hx => hp x (by simp [hx]))]
        rfl
      | idx n =>
        show tokenize (('[' :: (natDecimal n ++ [']'])) ++ streamTail rest) = _
        rw [tok_idx_starts, tok_stream rest (fun x hx => hp x (by simp [hx]))]
        rfl
    have hne : buildPathKey (s :: rest) ≠ "" := by
      intro hemp
      rw [hemp] at hdata
      have hnil : tokenOf s ++ streamTail rest = ([] : List Char) := hdata.symm
      rcases List.append_eq_nil.mp hnil with ⟨h1, _⟩
      cases s with
      | str s0 =>
        have hg : goodSeg (PathSegment.str s0) = true := hp (PathSegment.str s0) (by simp)
        have := (Bool.and_eq_true _ _).mp hg |>.1
        rw [show tokenOf (.str s0) = s0.data from rfl] at h1
        rw [h1] at this
        simp at this
      | idx n => simp [tokenOf] at h1
    rw [parsePathKey, if_neg hne, htok, List.map_map]
    have hid : ∀ x ∈ s :: rest, (parseToken ∘ tokenOf) x = x :=
      fun x hx => parseToken_tokenOf x (hp x hx)
    rw [List.map_congr_left hid]
    simp

/-- Witness for C1 at the concrete path a.b[0].c_2. -/
theorem claim_C1_pathkey_roundtrip_witness :
    (∀ s ∈ [PathSegment.str "a", PathSegment.str "b",
      PathSegment.idx 0, PathSegment.str "c_2"], goodSeg s = true) ∧
    parsePathKey (buildPathKey [PathSegment.str "a", PathSegment.str "b",
      PathSegment.idx 0, PathSegment.str "c_2"]) =
      [PathSegment.str "a", PathSegment.str "b",
        PathSegment.idx 0, PathSegment.str "c_2"] :=
  ⟨by decide, claim_C1_pathkey_roundtrip.2 _ (by decide)⟩

/-! Value accessors, from src/pathUtils.ts.  Property access follows
JavaScript semantics: an object property access coerces a numeric segment
to its decimal string key; an array access by a string segment reaches an
element exactly when the string is the canonical decimal form of an index.
Exotic built-in properties of arrays (length, methods) lie outside this
model of JSON data access, and a non-index property created on an array is
invisible to JSON serialization, so it is modelled as leaving the tree
unchanged. -/

/-- Canonical array-index reading of a string property key: digits only,
no leading zero except for the single digit zero itself. -/
def canonicalIndex? (s : String) : Option Nat :=
  if s.data ≠ [] ∧ (∀ c ∈ s.data, c.isDigit = true) ∧
      (s.data.head? = some '0' → s.data = ['0']) then
    some (digitsVal s.data)
  else none

/-- Object property key denoted by a path segment (JavaScript coerces a
numeric property access to its decimal string). -/
def objKey : PathSegment → String
  | .str s => s
  | .idx n => natRepr n

/-- Array element index denoted by a path segment, when any. -/
def arrIdx : PathSegment → Option Nat
  | .idx n => some n
  | .str s => canonicalIndex? s

/-- Association-list lookup by key, first match (JavaScript object
properties are unique, so first match is the property). -/
def lookupField : List (String × Value) → String → Option Value
  | [], _ => none
  | (k, v) :: rest, key => if k = key then some v else lookupField rest key

/-- Property update or creation: replace the first binding of the key,
append a new binding when absent (JavaScript property creation order). -/
def setField : List (String × Value) → String → Value → List (String × Value)
  | [], key, v => [(key, v)]
  | (k, w) :: rest, key, v =>
    if k = key then (k, v) :: rest else (k, w) :: setField rest key v

/-- Array element assignment: in range replaces, past the end extends the
array, the intervening holes serializing as null. -/
def arraySet (items : List Value) (n : Nat) (v : Value) : List Value :=
  if n < items.length then items.set n v
  else items ++ List.replicate (n - items.length) Value.null ++ [v]

/-- Lookup of one segment in one container, the current[segment] step of
getValueAtPath. -/
def indexGet : Value → PathSegment → Option Value
  | .obj fields, seg => lookupField fields (objKey seg)
  | .arr items, seg => (arrIdx seg).bind fun n => items[n]?
  | _, _ => none

/-- Assignment current[last] = newValue on a container, the final step of
setValueAtPath.  On an object it writes the coerced key; on an array a
canonical index writes the element, any other string key creates a
JSON-invisible property, leaving the modelled tree unchanged. -/
def indexSet : Value → PathSegment → Value → Option Value
  | .obj fields, seg, v => some (.obj (setField fields (objKey seg) v))
  | .arr items, seg, v =>
    match arrIdx seg with
    | some n => some (.arr (arraySet items n v))
    | none => some (.arr items)
  | _, _, _ => none

/-- Embedding of getValueAtPath: walks the segments, failing (undefined)
as soon as the current node is not a container or a lookup misses. -/
def getValueAtPath : Value → List PathSegment → Option Value
  | v, [] => some v
  | v, seg :: rest =>
    if v.isContainer then
      match indexGet v seg with
      | some child => getValueAtPath child rest
      | none => none
    else none

/-- Embedding of setValueAtPath: an empty path is rejected; the walk to
the parent container fails if an intermediate node is not a container (a
missing intermediate lookup fails at the following container check); the
final assignment happens on the parent container.  The source mutates in
place and returns a boolean; the embedding returns the updated root on
success and none on failure (the source performs no mutation on any
failing run, as the single assignment is its last step). -/
def setValueAtPath : Value → List PathSegment → Value → Option Value
  | _, [], _ => none
  | t, [last], v => if t.isContainer then indexSet t last v else none
  | t, seg :: s2 :: rest, v =>
    if t.isContainer then
      match indexGet t seg with
      | some child =>
        match setValueAtPath child (s2 :: rest) v with
        | some child2 => indexSet t seg child2
        | none => none
      | none => none
    else none

theorem isDigit_toNat_bounds {c : Char} (h : c.isDigit = true) :
    48 ≤ c.toNat ∧ c.toNat ≤ 57 := by
  simp only [Char.isDigit, Bool.and_eq_true, decide_eq_true_eq, ge_iff_le] at h
  obtain ⟨h1, h2⟩ := h
  exact ⟨UInt32.le_toNat_of_le (by norm_num [UInt32.size]) h1,
    UInt32.toNat_le_of_le (by norm_num [UInt32.size]) h2⟩

theorem digitChar_digitVal {c : Char} (h : c.isDigit = true) :
    digitChar (digitVal c) = c := by
  obtain ⟨h1, h2⟩ := isDigit_toNat_bounds h
  unfold digitChar digitVal
  rw [show 48 + (c.toNat - 48) = c.toNat by omega, Char.ofNat_toNat]

theorem digitVal_lt_ten {c : Char} (h : c.isDigit = true) : digitVal c < 10 := by
  obtain ⟨h1, h2⟩ := isDigit_toNat_bounds h
  unfold digitVal
  omega

theorem digitVal_pos_of_ne_zero {c : Char} (h : c.isDigit = true) (hz : c ≠ '0') :
    0 < digitVal c := by
  obtain ⟨h1, h2⟩ := isDigit_toNat_bounds h
  unfold digitVal
  rcases Nat.lt_or_ge 48 c.toNat with hlt | hge
  · omega
  · exfalso
    have hc : c.toNat = 48 := by omega
    have : c = '0' := by
      have := Char.ofNat_toNat c
      rw [hc] at this
      rw [← this]
    exact hz this

theorem digitsVal_foldl (l : List Char) : ∀ a : Nat,
    l.foldl (fun a c => 10 * a + digitVal c) a = a * 10 ^ l.length + digitsVal l := by
  induction l with
  | nil => intro a; simp [digitsVal]
  | cons c cs ih =>
    intro a
    rw [List.foldl_cons, ih (10 * a + digitVal c),
      show digitsVal (c :: cs) = List.foldl (fun a c => 10 * a + digitVal c)
        (10 * 0 + digitVal c) cs from rfl, ih (10 * 0 + digitVal c)]
    simp [List.length_cons, pow_succ]
    ring

theorem digitsVal_cons_pos {c : Char} {cs : List Char}
    (hc : c.isDigit = true) (hz : c ≠ '0') : 0 < digitsVal (c :: cs) := by
  have h1 : digitsVal (c :: cs) =
      (10 * 0 + digitVal c) * 10 ^ cs.length + digitsVal cs := by
    show List.foldl _ _ _ = _
    rw [List.foldl_cons, digitsVal_foldl]
  have h2 := digitVal_pos_of_ne_zero hc hz
  have h3 : 0 < 10 ^ cs.length := Nat.pos_pow_of_pos _ (by omega)
  have h1a : digitsVal (c :: cs) = digitVal c * 10 ^ cs.length + digitsVal cs := by
    simpa using h1
  have h4 : 0 < digitVal c * 10 ^ cs.length := Nat.mul_pos h2 h3
  omega

theorem natDecimal_digitsVal (ds : List Char) (hne : ds ≠ [])
    (hdig : ∀ c ∈ ds, c.isDigit = true)
    (hlead : ds.head? = some '0' → ds = ['0']) :
    natDecimal (digitsVal ds) = ds := by
  induction ds using List.reverseRecOn with
  | nil => exact absurd rfl hne
  | append_singleton xs c ih =>
    have hc : c.isDigit = true := hdig c (by simp)
    cases hxs : xs with
    | nil =>
      subst hxs
      have hval : digitsVal [c] = digitVal c := by
        show List.foldl _ _ _ = _
        simp [List.foldl_cons, digitsVal]
      show natDecimal (digitsVal [c]) = [c]
      rw [hval, natDecimal_eq, if_pos (digitVal_lt_ten hc), digitChar_digitVal hc]
    | cons x xrest =>
      subst hxs
      have hx : x.isDigit = true := hdig x (by simp)
      have hxz : x ≠ '0' := by
        intro hx0
        subst hx0
        have := hlead (by simp)
        simp at this
      have hpos : 0 < digitsVal (x :: xrest) := digitsVal_cons_pos hx hxz
      have hval : digitsVal ((x :: xrest) ++ [c]) =
          10 * digitsVal (x :: xrest) + digitVal c := digitsVal_append _ c
      have hge : 10 ≤ digitsVal ((x :: xrest) ++ [c]) := by
        have := digitVal_lt_ten hc
        omega
      rw [hval, natDecimal_eq, if_neg (by omega)]
      have hq : (10 * digitsVal (x :: xrest) + digitVal c) / 10 =
          digitsVal (x :: xrest) := by
        have := digitVal_lt_ten hc
        omega
      have hr : (10 * digitsVal (x :: xrest) + digitVal c) % 10 = digitVal c := by
        have := digitVal_lt_ten hc
        omega
      rw [hq, hr, digitChar_digitVal hc,
        ih (by simp) (fun y hy => hdig y (by simp [List.mem_append] at hy ⊢; tauto))
          (fun h0 => by
            simp only [List.head?_cons, Option.some.injEq] at h0
            exact absurd h0 hxz)]

theorem canonicalIndex?_natRepr (n : Nat) : canonicalIndex? (natRepr n) = some n := by
  have hcond : (natRepr n).data ≠ [] ∧ (∀ c ∈ (natRepr n).data, c.isDigit = true) ∧
      ((natRepr n).data.head? = some '0' → (natRepr n).data = ['0']) := by
    refine ⟨natDecimal_ne_nil n, natDecimal_all_digits n, ?_⟩
    intro h0
    by_cases hn : n = 0
    · subst hn; rfl
    · exact absurd rfl (natDecimal_head_ne_zero (Nat.pos_of_ne_zero hn) '0' h0)
  unfold canonicalIndex?
  rw [if_pos hcond]
  show some (digitsVal (natDecimal n)) = some n
  rw [digitsVal_natDecimal]

theorem canonicalIndex?_eq_some {s : String} {n : Nat}
    (h : canonicalIndex? s = some n) : s = natRepr n := by
  unfold canonicalIndex? at h
  by_cases hc : s.data ≠ [] ∧ (∀ c ∈ s.data, c.isDigit = true) ∧
      (s.data.head? = some '0' → s.data = ['0'])
  · rw [if_pos hc] at h
    injection h with h
    obtain ⟨l⟩ := s
    show String.mk l = String.mk (natDecimal n)
    rw [← h, natDecimal_digitsVal l hc.1 hc.2.1 hc.2.2]
  · rw [if_neg hc] at h
    exact absurd h (by simp)

theorem natRepr_inj {n m : Nat} (h : natRepr n = natRepr m) : n = m := by
  have h1 := congrArg (fun s => digitsVal (String.data s)) h
  simpa [natRepr, digitsVal_natDecimal] using h1

/-- Canonical form of a path segment with respect to JavaScript property
coercion: a string that is the canonical decimal form of an index denotes
the same property as the index itself, on both container kinds. -/
def canonSeg : PathSegment → PathSegment
  | .str s =>
    match canonicalIndex? s with
    | some n => .idx n
    | none => .str s
  | .idx n => .idx n

theorem canonSeg_str (s : String) : canonSeg (.str s) =
    match canonicalIndex? s with
    | some n => .idx n
    | none => .str s := rfl

theorem objKey_canon (x : PathSegment) : objKey (canonSeg x) = objKey x := by
  cases x with
  | idx n => rfl
  | str s =>
    rw [canonSeg_str]
    cases hs : canonicalIndex? s with
    | some n =>
      show natRepr n = s
      exact (canonicalIndex?_eq_some hs).symm
    | none => rfl

theorem arrIdx_canon (x : PathSegment) : arrIdx (canonSeg x) = arrIdx x := by
  cases x with
  | idx n => rfl
  | str s =>
    rw [canonSeg_str]
    cases hs : canonicalIndex? s with
    | some n => show some n = canonicalIndex? s; rw [hs]
    | none => show canonicalIndex? s = canonicalIndex? s; rfl

theorem canonSeg_objKey {a b : PathSegment} (h : canonSeg a = canonSeg b) :
    objKey a = objKey b := by
  rw [← objKey_canon a, ← objKey_canon b, h]

theorem canonSeg_arrIdx {a b : PathSegment} (h : canonSeg a = canonSeg b) :
    arrIdx a = arrIdx b := by
  rw [← arrIdx_canon a, ← arrIdx_canon b, h]

theorem objKey_canonSeg {a b : PathSegment} (h : objKey a = objKey b) :
    canonSeg a = canonSeg b := by
  cases a with
  | idx n =>
    cases b with
    | idx m => rw [natRepr_inj (show natRepr n = natRepr m from h)]
    | str t =>
      have ht : t = natRepr n := (show natRepr n = t from h).symm
      subst ht
      show PathSegment.idx n = canonSeg (.str (natRepr n))
      rw [canonSeg_str, canonicalIndex?_natRepr]
  | str s =>
    cases b with
    | idx m =>
      have hs : s = natRepr m := h
      subst hs
      show canonSeg (.str (natRepr m)) = PathSegment.idx m
      rw [canonSeg_str, canonicalIndex?_natRepr]
    | str t => rw [show s = t from h]

theorem arrIdx_some_canonSeg {a b : PathSegment} {n : Nat}
    (ha : arrIdx a = some n) (hb : arrIdx b = some n) : canonSeg a = canonSeg b := by
  have key : ∀ x : PathSegment, arrIdx x = some n → canonSeg x = .idx n := by
    intro x hx
    cases x with
    | idx k =>
      injection hx with hx
      rw [hx]
      rfl
    | str s =>
      rw [canonSeg_str, show canonicalIndex? s = some n from hx]
  rw [key a ha, key b hb]

theorem lookupField_setField_self (fields : List (String × Value))
    (key : String) (v : Value) :
    lookupField (setField fields key v) key = some v := by
  induction fields with
  | nil => simp [setField, lookupField]
  | cons kv rest ih =>
    obtain ⟨k, w⟩ := kv
    by_cases hk : k = key
    · subst hk
      simp [setField, lookupField]
    · simp [setField, lookupField, hk, ih]

theorem lookupField_setField_ne (fields : List (String × Value))
    (key key2 : String) (v : Value) (h : key2 ≠ key) :
    lookupField (setField fields key v) key2 = lookupField fields key2 := by
  induction fields with
  | nil => simp [setField, lookupField, Ne.symm h]
  | cons kv rest ih =>
    obtain ⟨k, w⟩ := kv
    by_cases hk : k = key
    · subst hk
      simp [setField, lookupField, Ne.symm h]
    · simp [setField, lookupField, hk, ih]

theorem indexGet_canon_congr {a b : PathSegment} (h : canonSeg a = canonSeg b)
    (c : Value) : indexGet c a = indexGet c b := by
  cases c with
  | obj fields =>
    show lookupField fields (objKey a) = lookupField fields (objKey b)
    rw [canonSeg_objKey h]
  | arr items =>
    show (arrIdx a).bind _ = (arrIdx b).bind _
    rw [canonSeg_arrIdx h]
  | null => rfl
  | bool b => rfl
  | num n => rfl
  | str s => rfl

theorem indexSet_preserve {c : Value} {seg : PathSegment} {w : Value} (v : Value)
    (hget : indexGet c seg = some w) :
    ∃ c2, indexSet c seg v = some c2 ∧ c2.isContainer = true ∧
      (∀ s2, canonSeg s2 = canonSeg seg → indexGet c2 s2 = some v) ∧
      (∀ s2, canonSeg s2 ≠ canonSeg seg → indexGet c2 s2 = indexGet c s2) := by
  cases c with
  | obj fields =>
    refine ⟨.obj (setField fields (objKey seg) v), rfl, rfl, ?_, ?_⟩
    · intro s2 h
      show lookupField (setField fields (objKey seg) v) (objKey s2) = some v
      rw [canonSeg_objKey h, lookupField_setField_self]
    · intro s2 h
      show lookupField (setField fields (objKey seg) v) (objKey s2) =
        lookupField fields (objKey s2)
      exact lookupField_setField_ne fields (objKey seg) (objKey s2) v
        fun heq => h (objKey_canonSeg heq)
  | arr items =>
    cases hai : arrIdx seg with
    | none =>
      exfalso
      have : indexGet (.arr items) seg = none := by
        show (arrIdx seg).bind _ = none
        rw [hai]
        rfl
      rw [this] at hget
      exact absurd hget (by simp)
    | some n =>
      have hn : items[n]? = some w := by
        have : indexGet (.arr items) seg = items[n]? := by
          show (arrIdx seg).bind _ = _
          rw [hai]
          rfl
        rw [this] at hget
        exact hget
      have hlt : n < items.length := by
        rcases List.getElem?_eq_some.mp hn with ⟨hlt, _⟩
        exact hlt
      refine ⟨.arr (arraySet items n v), ?_, rfl, ?_, ?_⟩
      · show (match arrIdx seg with
          | some n => some (Value.arr (arraySet items n v))
          | none => some (Value.arr items)) = _
        rw [hai]
      · intro s2 h
        have h2 : arrIdx s2 = some n := by rw [canonSeg_arrIdx h, hai]
        show (arrIdx s2).bind _ = some v
        rw [h2]
        show (arraySet items n v)[n]? = some v
        unfold arraySet
        rw [if_pos hlt]
        exact List.getElem?_set_self hlt
      · intro s2 h
        show (arrIdx s2).bind _ = (arrIdx s2).bind _
        cases h2 : arrIdx s2 with
        | none => rfl
        | some m =>
          have hm : n ≠ m := by
            intro heq
            subst heq
            exact h (arrIdx_some_canonSeg h2 hai)
          show (arraySet items n v)[m]? = items[m]?
          unfold arraySet
          rw [if_pos hlt]
          exact List.getElem?_set_ne hm
  | null => exact absurd hget (by simp [indexGet])
  | bool b => exact absurd hget (by simp [indexGet])
  | num n => exact absurd hget (by simp [indexGet])
  | str s => exact absurd hget (by simp [indexGet])

/-- Canonical-prefix relation on paths: the canonical image of the first
path is a prefix of the canonical image of the second, so that the first
addresses a node on the way to (or at) the second. -/
def canonLeads : List PathSegment → List PathSegment → Prop
  | [], _ => True
  | _ :: _, [] => False
  | a :: p, b :: q => canonSeg a = canonSeg b ∧ canonLeads p q

instance canonLeads.dec : ∀ p q, Decidable (canonLeads p q)
  | [], _ => .isTrue trivial
  | _ :: _, [] => .isFalse fun h => h
  | a :: p, b :: q =>
    have : Decidable (canonLeads p q) := canonLeads.dec p q
    inferInstanceAs (Decidable (_ ∧ _))

/-- Two paths are independent when neither addresses a node on the way to
the other, up to JavaScript property coercion: exactly the situation of a
sibling subtree. -/
def PathIndependent (p q : List PathSegment) : Prop :=
  ¬ canonLeads p q ∧ ¬ canonLeads q p

theorem getValueAtPath_cons (v : Value) (seg : PathSegment)
    (rest : List PathSegment) :
    getValueAtPath v (seg :: rest) =
      if v.isContainer then
        match indexGet v seg with
        | some child => getValueAtPath child rest
        | none => none
      else none := rfl

theorem setValueAtPath_single (t : Value) (last : PathSegment) (v : Value) :
    setValueAtPath t [last] v =
      if t.isContainer then indexSet t last v else none := rfl

theorem setValueAtPath_cons2 (t : Value) (seg s2 : PathSegment)
    (rest : List PathSegment) (v : Value) :
    setValueAtPath t (seg :: s2 :: rest) v =
      if t.isContainer then
        match indexGet t seg with
        | some child =>
          match setValueAtPath child (s2 :: rest) v with
          | some child2 => indexSet t seg child2
          | none => none
        | none => none
      else none := rfl

theorem getValueAtPath_cons_some {v : Value} {seg : PathSegment}
    {rest : List PathSegment} (h : (getValueAtPath v (seg :: rest)).isSome) :
    v.isContainer = true ∧
      ∃ child, indexGet v seg = some child ∧ (getValueAtPath child rest).isSome := by
  rw [getValueAtPath_cons] at h
  by_cases hc : v.isContainer
  · rw [if_pos hc] at h
    cases hg : indexGet v seg with
    | none => rw [hg] at h; simp at h
    | some child =>
      rw [hg] at h
      exact ⟨hc, child, rfl, h⟩
  · rw [if_neg hc] at h
    simp at h

/-- C2: get/set consistency with a frame condition.  For a container root
and a non-empty path that resolves in it, the set succeeds, a subsequent
get at the same path returns the new value, and the get at every path
independent of the written one (every sibling subtree) is unchanged. -/
theorem claim_C2_get_set_consistency :
    ∀ (p : List PathSegment) (r v : Value),
      r.isContainer = true → p ≠ [] → (getValueAtPath r p).isSome →
      ∃ r2, setValueAtPath r p v = some r2 ∧
        getValueAtPath r2 p = some v ∧
        ∀ q, PathIndependent p q →
          getValueAtPath r2 q = getValueAtPath r q := by
  intro p
  induction p with
  | nil => intro r v _ hne _; exact absurd rfl hne
  | cons seg rest ih =>
    intro r v hcont _ hres
    obtain ⟨_, child, hget, hres2⟩ := getValueAtPath_cons_some hres
    cases rest with
    | nil =>
      obtain ⟨c2, hset, hc2, hsame, hdiff⟩ := indexSet_preserve v hget
      refine ⟨c2, ?_, ?_, ?_⟩
      · rw [setValueAtPath_single, if_pos hcont]
        exact hset
      · rw [getValueAtPath_cons, if_pos hc2, hsame seg rfl]
        rfl
      · rintro q ⟨hq1, hq2⟩
        cases q with
        | nil => exact absurd trivial hq2
        | cons q0 qrest =>
          have hne0 : canonSeg q0 ≠ canonSeg seg := fun heq => hq1 ⟨heq.symm, trivial⟩
          rw [getValueAtPath_cons, getValueAtPath_cons, if_pos hc2, if_pos hcont,
            hdiff q0 hne0]
    | cons s2 rest' =>
      have hchild_cont : child.isContainer = true :=
        (getValueAtPath_cons_some hres2).1
      obtain ⟨c3, hset3, hget3, hframe3⟩ := ih child v hchild_cont (by simp) hres2
      obtain ⟨c2, hset, hc2, hsame, hdiff⟩ := indexSet_preserve c3 hget
      refine ⟨c2, ?_, ?_, ?_⟩
      · rw [setValueAtPath_cons2, if_pos hcont, hget]
        show (match setValueAtPath child (s2 :: rest') v with
          | some child2 => indexSet r seg child2
          | none => none) = some c2
        rw [hset3]
        exact hset
      · rw [getValueAtPath_cons, if_pos hc2, hsame seg rfl]
        exact hget3
      · rintro q ⟨hq1, hq2⟩
        cases q with
        | nil => exact absurd trivial hq2
        | cons q0 qrest =>
          by_cases heq : canonSeg q0 = canonSeg seg
          · have hq1a : ¬ canonLeads (s2 :: rest') qrest := fun h => hq1 ⟨heq.symm, h⟩
            have hq2a : ¬ canonLeads qrest (s2 :: rest') := fun h => hq2 ⟨heq, h⟩
            rw [getValueAtPath_cons, getValueAtPath_cons, if_pos hc2, if_pos hcont,
              hsame q0 heq, indexGet_canon_congr heq r, hget]
            exact hframe3 qrest ⟨hq1a, hq2a⟩
          · rw [getValueAtPath_cons, getValueAtPath_cons, if_pos hc2, if_pos hcont,
              hdiff q0 heq]

/-- Concrete root used by the C2 witness. -/
def exC2root : Value :=
  Value.obj [("a", Value.obj [("b", Value.num (.fin 1))]), ("c", Value.num (.fin 2))]

/-- Witness for C2 at a concrete root and path. -/
theorem claim_C2_get_set_consistency_witness :
    exC2root.isContainer = true ∧
    ([PathSegment.str "a", PathSegment.str "b"] : List PathSegment) ≠ [] ∧
    (getValueAtPath exC2root [PathSegment.str "a", PathSegment.str "b"]).isSome = true ∧
    ∃ r2, setValueAtPath exC2root [PathSegment.str "a", PathSegment.str "b"]
        (Value.num (.fin 99)) = some r2 ∧
      getValueAtPath r2 [PathSegment.str "a", PathSegment.str "b"] =
        some (Value.num (.fin 99)) ∧
      ∀ q, PathIndependent [PathSegment.str "a", PathSegment.str "b"] q →
        getValueAtPath r2 q = getValueAtPath exC2root q :=
  ⟨rfl, by simp, rfl,
    claim_C2_get_set_consistency [PathSegment.str "a", PathSegment.str "b"]
      exC2root (Value.num (.fin 99)) rfl (by simp) rfl⟩

/-- C9 counterexample: an integer segment against an object is not simply
not-found; JavaScript coerces the index zero to the string key, and the
lookup succeeds on an object that has the key. -/
theorem claim_C9_counterexample :
    getValueAtPath (Value.obj [("0", Value.str "x")]) [PathSegment.idx 0] =
      some (Value.str "x") := rfl

/-- C9 amended: the accessors are polymorphic through JavaScript property
coercion rather than by failing on a kind mismatch.  An integer segment on
an object looks up the decimal string key (not-found exactly when that key
is absent); a string segment on an array reaches the element exactly when
the string is the canonical decimal index, and otherwise the get is
not-found while the set reports success and leaves the JSON-visible tree
unchanged (the value lands in a non-index property invisible to JSON). -/
theorem claim_C9_accessor_polymorphism_amended :
    (∀ (fields : List (String × Value)) (n : Nat),
      getValueAtPath (Value.obj fields) [PathSegment.idx n] =
        lookupField fields (natRepr n)) ∧
    (∀ (items : List Value) (s : String),
      getValueAtPath (Value.arr items) [PathSegment.str s] =
        (canonicalIndex? s).bind fun n => items[n]?) ∧
    (∀ (fields : List (String × Value)) (n : Nat) (v : Value),
      setValueAtPath (Value.obj fields) [PathSegment.idx n] v =
        some (Value.obj (setField fields (natRepr n) v))) ∧
    (∀ (items : List Value) (s : String) (v : Value),
      canonicalIndex? s = none →
      setValueAtPath (Value.arr items) [PathSegment.str s] v =
        some (Value.arr items)) := by
  refine ⟨?_, ?_, ?_, ?_⟩
  · intro fields n
    rw [getValueAtPath_cons]
    show (match lookupField fields (natRepr n) with
      | some child => getValueAtPath child []
      | none => none) = lookupField fields (natRepr n)
    cases lookupField fields (natRepr n) <;> rfl
  · intro items s
    rw [getValueAtPath_cons]
    show (match (canonicalIndex? s).bind fun n => items[n]? with
      | some child => getValueAtPath child []
      | none => none) = (canonicalIndex? s).bind fun n => items[n]?
    cases (canonicalIndex? s).bind fun n => items[n]? <;> rfl
  · intro fields n v
    rw [setValueAtPath_single]
    rfl
  · intro items s v h
    rw [setValueAtPath_single]
    show indexSet (Value.arr items) (.str s) v = some (Value.arr items)
    show (match arrIdx (.str s) with
      | some n => some (Value.arr (arraySet items n v))
      | none => some (Value.arr items)) = some (Value.arr items)
    rw [show arrIdx (.str s) = canonicalIndex? s from rfl, h]

/-- Witness for the amended C9 at a concrete non-index string key. -/
theorem claim_C9_accessor_polymorphism_amended_witness :
    canonicalIndex? "foo" = none ∧
    setValueAtPath (Value.arr [Value.str "a"]) [PathSegment.str "foo"]
      (Value.num (.fin 5)) = some (Value.arr [Value.str "a"]) :=
  ⟨by decide,
    claim_C9_accessor_polymorphism_amended.2.2.2 [Value.str "a"] "foo"
      (Value.num (.fin 5)) (by decide)⟩

/-! Schema normalizer, from schema.ts. -/

/-- SchemaValueType from schema.ts. -/
inductive SchemaValueType where
  | string
  | enum
  | integer
  | number
  | boolean
deriving DecidableEq

/-- SchemaRange: optional numeric bounds and an optional option list.
Option entries keep their raw JSON values, as the source casts the array
without inspecting it.  Values reaching the normalizer come from strict
JSON parsing, so numeric properties are finite. -/
structure SchemaRange where
  min? : Option ℚ := none
  max? : Option ℚ := none
  options? : Option (List Value) := none

/-- SchemaFieldDefinition from schema.ts, every property optional. -/
structure SchemaFieldDefinition where
  visible? : Option Bool := none
  label? : Option String := none
  description? : Option String := none
  type? : Option SchemaValueType := none
  rawType? : Option String := none
  schemaPath? : Option (List String) := none
  enum? : Option (List Value) := none
  range? : Option SchemaRange := none
  unit? : Option String := none

/-- Plain-object test from schema.ts: an object that is neither null nor
an array. -/
def isPlainObject : Value → Bool
  | .obj _ => true
  | _ => false

/-- Embedding of the JavaScript string trim: strip leading and trailing
blanks (the model covers the ASCII blanks). -/
def jsTrim (s : String) : String :=
  String.mk ((s.data.dropWhile Char.isWhitespace).reverse.dropWhile
    Char.isWhitespace).reverse

/-- Lowercasing of one character, basic latin. -/
def lowerChar (c : Char) : Char :=
  if 65 ≤ c.toNat ∧ c.toNat ≤ 90 then Char.ofNat (c.toNat + 32) else c

/-- Embedding of the JavaScript toLowerCase on the basic latin range. -/
def jsToLower (s : String) : String := String.mk (s.data.map lowerChar)

/-- Embedding of normalizeType: trim and lowercase the raw string, then
map the accepted spellings onto the five normalized types. -/
def normalizeType (rawType : Option Value) : Option SchemaValueType :=
  match rawType with
  | some (.str s) =>
    if (jsTrim s).length = 0 then none
    else
      let value := jsToLower (jsTrim s)
      if value = "string" ∨ value = "text" then some .string
      else if value = "enum" ∨ value = "select" then some .enum
      else if value = "integer" ∨ value = "int" ∨ value = "long" ∨
          value = "short" then some .integer
      else if value = "float" ∨ value = "double" ∨ value = "number" ∨
          value = "decimal" then some .number
      else if value = "boolean" ∨ value = "bool" then some .boolean
      else none
  | _ => none

/-- Separator class of parseEnumString: vertical bar, comma, semicolon. -/
def isSepChar (c : Char) : Bool := c == '|' || c == ',' || c == ';'

/-- Splitting on separator characters, keeping empty pieces, as the
JavaScript split on a character class does. -/
def splitChars : List Char → List Char → List (List Char)
  | [], cur => [cur.reverse]
  | c :: rest, cur =>
    if isSepChar c then cur.reverse :: splitChars rest []
    else splitChars rest (c :: cur)

/-- Embedding of parseEnumString: split on the separators, trim each
piece, keep the non-empty ones. -/
def parseEnumString (raw : String) : List String :=
  ((splitChars raw.data []).map fun t => jsTrim (String.mk t)).filter
    fun e => e.length > 0

/-- Decimal rational of an optional sign, integer digits and fraction
digits, the value Number.parseFloat assigns to a matched number. -/
def decimalVal (sign : Bool) (intDs fracDs : List Char) : ℚ :=
  let mag : ℚ := mkRat
    (digitsVal intDs * 10 ^ fracDs.length + digitsVal fracDs)
    (10 ^ fracDs.length)
  if sign then -mag else mag

/-- One regex number match: its value and the remaining characters. -/
structure NumMatch where
  val : ℚ
  rest : List Char

/-- Candidates for the pattern of an optional minus sign, one or more
digits and an optional fraction, at the current position, in the order the
backtracking regex engine tries them: the greedy form with the fraction
first, then the form without it. -/
def parseNumberCandidates (cs : List Char) : List NumMatch :=
  let sign := match cs with
    | '-' :: _ => true
    | _ => false
  let cs1 := if sign then cs.tail else cs
  let intDs := cs1.takeWhile Char.isDigit
  let cs2 := cs1.dropWhile Char.isDigit
  if intDs = [] then []
  else
    match cs2 with
    | '.' :: cs3 =>
      let fracDs := cs3.takeWhile Char.isDigit
      let cs4 := cs3.dropWhile Char.isDigit
      if fracDs = [] then [⟨decimalVal sign intDs [], cs2⟩]
      else [⟨decimalVal sign intDs fracDs, cs4⟩, ⟨decimalVal sign intDs [], cs2⟩]
    | _ => [⟨decimalVal sign intDs [], cs2⟩]

/-- Attempt to match the whole interval pattern at the current position:
first number, optional blanks, a dash or tilde, optional blanks, second
number (greedy, no continuation). -/
def tryRangeAt (cs : List Char) : Option (ℚ × ℚ) :=
  (parseNumberCandidates cs).findSome? fun cand =>
    match cand.rest.dropWhile Char.isWhitespace with
    | c :: r2 =>
      if c = '-' ∨ c = '~' then
        match (parseNumberCandidates (r2.dropWhile Char.isWhitespace)).head? with
        | some cand2 => some (cand.val, cand2.val)
        | none => none
      else none
    | [] => none

/-- Leftmost-match scan of the interval pattern, advancing one character
after each failed position, as the regex search does. -/
def parseRangeScan : List Char → Option (ℚ × ℚ)
  | [] => none
  | c :: rest =>
    match tryRangeAt (c :: rest) with
    | some r => some r
    | none => parseRangeScan rest

/-- Embedding of parseRangeString: search the trimmed string for the
numeric interval pattern; the parsed groups are digit runs, so the NaN
guard of the source never fires. -/
def parseRangeString (raw : String) : Option SchemaRange :=
  match parseRangeScan (jsTrim raw).data with
  | some (mn, mx) => some { min? := some mn, max? := some mx }
  | none => none

/-- Embedding of normalizeRange: an array becomes an option list when
non-empty; an object contributes its numeric min and max and array
options when at least one is present; a non-blank string is first tried
as an interval, then split into an option list when the declared type is
enum or at least two pieces result. -/
def normalizeRange (raw : Value) (type : Option SchemaValueType) :
    Option SchemaRange :=
  match raw with
  | .arr options =>
    if options.length > 0 then some { options? := some options } else none
  | .obj fields =>
    let mn : Option ℚ := match lookupField fields "min" with
      | some (.num (.fin q)) => some q
      | _ => none
    let mx : Option ℚ := match lookupField fields "max" with
      | some (.num (.fin q)) => some q
      | _ => none
    let os : Option (List Value) := match lookupField fields "options" with
      | some (.arr o) => some o
      | _ => none
    if mn.isSome ∨ mx.isSome ∨ os.isSome then
      some { min? := mn, max? := mx, options? := os }
    else none
  | .str s =>
    if (jsTrim s).length > 0 then
      match parseRangeString s with
      | some r => some r
      | none =>
        let items := parseEnumString s
        if items.length > 0 ∧ (type = some .enum ∨ items.length > 1) then
          some { options? := some (items.map Value.str) }
        else none
    else none
  | _ => none

/-- Reserved metadata keys of the normalizer. -/
def METADATA_KEYS : List String :=
  ["visible", "visibility", "label", "title", "description", "meaning",
   "help", "helpText", "type", "enum", "range", "unit"]

/-- Non-metadata plain-object properties of a candidate object. -/
def stripList (fields : List (String × Value)) : List (String × Value) :=
  fields.filter fun kv => !METADATA_KEYS.contains kv.1 && isPlainObject kv.2

/-- Embedding of stripMetadataKeys: the nested record, or none when it
would be empty. -/
def stripMetadataKeys (fields : List (String × Value)) :
    Option (List (String × Value)) :=
  let nested := stripList fields
  if nested.length > 0 then some nested else none

/-- First non-blank string among the listed property values, trimmed:
the pickFirstString helper. -/
def pickFirstString : List (Option Value) → Option String
  | [] => none
  | some (.str s) :: rest =>
    if (jsTrim s).length > 0 then some (jsTrim s) else pickFirstString rest
  | _ :: rest => pickFirstString rest

/-! The steps of normalizeFieldObject, in source order.  Each step reads
one group of properties of the candidate object and updates the field
record together with the defined flag. -/

/-- Step for the boolean visible property. -/
def applyVisible (fields : List (String × Value))
    (fd : SchemaFieldDefinition × Bool) : SchemaFieldDefinition × Bool :=
  match lookupField fields "visible" with
  | some (.bool b) => ({ fd.1 with visible? := some b }, true)
  | _ => fd

/-- Step for the visibility string property: visible maps to true,
invisible, hidden and false map to false, anything else leaves the flag
unset, but a string visibility always counts as defined. -/
def applyVisibility (fields : List (String × Value))
    (fd : SchemaFieldDefinition × Bool) : SchemaFieldDefinition × Bool :=
  match lookupField fields "visibility" with
  | some (.str s) =>
    let normalized := jsToLower (jsTrim s)
    let f1 :=
      if normalized = "visible" then { fd.1 with visible? := some true }
      else if normalized = "invisible" ∨ normalized = "hidden" ∨
          normalized = "false" then { fd.1 with visible? := some false }
      else fd.1
    (f1, true)
  | _ => fd

/-- Step for the label property. -/
def applyLabel (fields : List (String × Value))
    (fd : SchemaFieldDefinition × Bool) : SchemaFieldDefinition × Bool :=
  match lookupField fields "label" with
  | some (.str s) =>
    if (jsTrim s).length > 0 then ({ fd.1 with label? := some (jsTrim s) }, true)
    else fd
  | _ => fd

/-- Step for the title property, used only when no label is set yet. -/
def applyTitle (fields : List (String × Value))
    (fd : SchemaFieldDefinition × Bool) : SchemaFieldDefinition × Bool :=
  match lookupField fields "title" with
  | some (.str s) =>
    if (jsTrim s).length > 0 ∧ fd.1.label? = none then
      ({ fd.1 with label? := some (jsTrim s) }, true)
    else fd
  | _ => fd

/-- Step for the description group: description, meaning, helpText, help,
in that order. -/
def applyDescription (fields : List (String × Value))
    (fd : SchemaFieldDefinition × Bool) : SchemaFieldDefinition × Bool :=
  match pickFirstString [lookupField fields "description",
      lookupField fields "meaning", lookupField fields "helpText",
      lookupField fields "help"] with
  | some d => ({ fd.1 with description? := some d }, true)
  | none => fd

/-- Step for the unit property. -/
def applyUnit (fields : List (String × Value))
    (fd : SchemaFieldDefinition × Bool) : SchemaFieldDefinition × Bool :=
  match lookupField fields "unit" with
  | some (.str s) =>
    if (jsTrim s).length > 0 then ({ fd.1 with unit? := some (jsTrim s) }, true)
    else fd
  | _ => fd

/-- Step for the type property: the normalized type is recorded when
recognized, together with the lowercased raw spelling when non-blank. -/
def applyType (fields : List (String × Value))
    (fd : SchemaFieldDefinition × Bool) : SchemaFieldDefinition × Bool :=
  let originalType : Option String := match lookupField fields "type" with
    | some (.str s) => some (jsToLower (jsTrim s))
    | _ => none
  match normalizeType (lookupField fields "type") with
  | some t =>
    let f1 := { fd.1 with type? := some t }
    let f2 := match originalType with
      | some o => if o.length > 0 then { f1 with rawType? := some o } else f1
      | none => f1
    (f2, true)
  | none => fd

/-- Step for the enum property: any array is taken as the option list. -/
def applyEnum (fields : List (String × Value))
    (fd : SchemaFieldDefinition × Bool) : SchemaFieldDefinition × Bool :=
  match lookupField fields "enum" with
  | some (.arr es) => ({ fd.1 with enum? := some es }, true)
  | _ => fd

/-- Step for the range property: when present and normalizable the range
is recorded, and its options are mirrored into enum exactly when no enum
was set and the declared type normalized to enum. -/
def applyRange (fields : List (String × Value))
    (fd : SchemaFieldDefinition × Bool) : SchemaFieldDefinition × Bool :=
  match lookupField fields "range" with
  | none => fd
  | some rawRange =>
    match normalizeRange rawRange fd.1.type? with
    | some range =>
      let f1 := { fd.1 with range? := some range }
      let f2 :=
        if f1.enum?.isNone ∧ f1.type? = some .enum ∧ range.options?.isSome then
          { f1 with enum? := range.options? }
        else f1
      (f2, true)
    | none => fd

/-- Embedding of normalizeFieldObject: the steps in source order, yielding
a definition exactly when at least one recognized property was present. -/
def normalizeFieldObject (fields : List (String × Value)) :
    Option SchemaFieldDefinition :=
  let fd := applyRange fields (applyEnum fields (applyType fields (applyUnit fields
    (applyDescription fields (applyTitle fields (applyLabel fields
    (applyVisibility fields (applyVisible fields ({}, false)))))))))
  if fd.2 then some fd.1 else none

/-- Bracket-index shape test of joinSegments, the anchored regex of an
opening bracket, digits, closing bracket. -/
def isBracketShape (s : String) : Bool :=
  match s.data with
  | c :: rest =>
    c == '[' && !(rest.takeWhile Char.isDigit).isEmpty &&
      rest.dropWhile Char.isDigit == [']']
  | [] => false

/-- Digits-only shape test of joinSegments. -/
def isDigitsOnly (s : String) : Bool := !s.data.isEmpty && s.data.all Char.isDigit

/-- Embedding of joinSegments: a segment already written as a bracketed
index is emitted verbatim with no separator, a digits-only segment is
bracketed with no separator, and any other segment is bare first and
dot-prefixed afterwards. -/
def joinSegments (segments : List String) : String :=
  if segments.length = 0 then "" else
    String.join (segments.mapIdx fun i segment =>
      if isBracketShape segment then segment
      else if isDigitsOnly segment then "[" ++ segment ++ "]"
      else if i = 0 then segment else "." ++ segment)

theorem sizeOf_filter_le {α : Type} [SizeOf α] (p : α → Bool) (l : List α) :
    sizeOf (l.filter p) ≤ sizeOf l := by
  induction l with
  | nil => simp
  | cons a rest ih =>
    rw [List.filter_cons]
    by_cases hp : p a
    · rw [if_pos hp]
      simp only [List.cons.sizeOf_spec]
      omega
    · rw [if_neg hp]
      simp only [List.cons.sizeOf_spec]
      have : 0 ≤ sizeOf a := Nat.zero_le _
      omega

theorem stripMetadataKeys_eq_some {fields nested : List (String × Value)}
    (h : stripMetadataKeys fields = some nested) : nested = stripList fields := by
  unfold stripMetadataKeys at h
  by_cases hl : (stripList fields).length > 0
  · rw [if_pos hl] at h
    injection h with h
    exact h.symm
  · rw [if_neg hl] at h
    exact absurd h (by simp)

mutual

/-- Computable structural size of a value, used as recursion fuel. -/
def Value.size : Value → Nat
  | .null => 1
  | .bool _ => 1
  | .num _ => 1
  | .str _ => 1
  | .arr items => 1 + Value.sizeList items
  | .obj fields => 1 + Value.sizeFields fields

/-- Size of a list of values. -/
def Value.sizeList : List Value → Nat
  | [] => 1
  | v :: rest => 1 + Value.size v + Value.sizeList rest

/-- Size of a record of values. -/
def Value.sizeFields : List (String × Value) → Nat
  | [] => 1
  | (_, v) :: rest => 1 + Value.size v + Value.sizeFields rest

end

/-- Fuelled embedding of flattenSchema: walk the entries of a record; a
plain object entry is interpreted as a field definition, recorded when at
least one recognized property was present (attaching the raw traversal
path), and the recursion continues into its non-metadata plain-object
properties; an unrecognized object is traversed unconditionally.  The
source assigns into a mutable record; the embedding returns the
assignments in order.  Every recursive call moves to a record of strictly
smaller sizeOf (a sublist of a structurally contained record, by
sizeOf_filter_le) while spending one unit of fuel, so the initial fuel
sizeOf source is never exhausted. -/
def flattenSchemaAux : Nat → List (String × Value) → List String →
    List String → List (String × SchemaFieldDefinition)
  | 0, _, _, _ => []
  | fuel + 1, source, segments, rawSegments =>
    match source with
    | [] => []
    | (key, value) :: rest =>
      (match value with
       | .obj fields =>
         let pathSegments := segments ++ [key]
         let rawPath := rawSegments ++ [key]
         match normalizeFieldObject fields with
         | some fieldDefinition =>
           (joinSegments pathSegments,
             { fieldDefinition with schemaPath? := some rawPath }) ::
             (match stripMetadataKeys fields with
              | some nested => flattenSchemaAux fuel nested pathSegments rawPath
              | none => [])
         | none => flattenSchemaAux fuel fields pathSegments rawPath
       | _ => []) ++ flattenSchemaAux fuel rest segments rawSegments

/-- The flattening at adequate fuel. -/
def flattenSchema (source : List (String × Value)) (segments : List String)
    (rawSegments : List String) : List (String × SchemaFieldDefinition) :=
  flattenSchemaAux (Value.sizeFields source) source segments rawSegments

/-- Record assignment on an ordered association list: an existing binding
is updated in place, a new one is appended. -/
def recordSetFD (m : List (String × SchemaFieldDefinition)) (key : String)
    (v : SchemaFieldDefinition) : List (String × SchemaFieldDefinition) :=
  match m with
  | [] => [(key, v)]
  | (k, w) :: rest =>
    if k = key then (k, v) :: rest else (k, w) :: recordSetFD rest key v

/-- Record lookup for the flattened schema mapping (ConfigSchema.getField). -/
def lookupEntry : List (String × SchemaFieldDefinition) → String →
    Option SchemaFieldDefinition
  | [], _ => none
  | (k, v) :: rest, key => if k = key then some v else lookupEntry rest key

/-- View of a value as a record of entries, as Object.entries sees it: an
object keeps its properties, an array enumerates its elements under their
decimal index keys. -/
def asRecord : Value → Option (List (String × Value))
  | .obj fields => some fields
  | .arr items => some (items.mapIdx fun i v => (natRepr i, v))
  | _ => none

/-- Embedding of normalizeSchema: the fields property, when it is a
non-null object, is flattened with raw root fields; every other top-level
property is flattened rooted at the document; the assignments build the
result record in order, later ones overwriting earlier ones. -/
def normalizeSchema (raw : Value) : List (String × SchemaFieldDefinition) :=
  match asRecord raw with
  | none => []
  | some entries =>
    let base := match lookupField entries "fields" with
      | some fv =>
        match asRecord fv with
        | some ff => flattenSchema ff [] ["fields"]
        | none => []
      | none => []
    let remainder := entries.filter fun kv => kv.1 ≠ "fields"
    (base ++ flattenSchema remainder [] []).foldl
      (fun m kv => recordSetFD m kv.1 kv.2) []

/-- Presence of an explicitly authored enum array on a candidate object
(the only way the enum step sets the enum property). -/
def hasEnumArray (fields : List (String × Value)) : Bool :=
  match lookupField fields "enum" with
  | some (.arr _) => true
  | _ => false

theorem applyVisible_keeps (fields : List (String × Value))
    (fd : SchemaFieldDefinition × Bool) :
    (applyVisible fields fd).1.enum? = fd.1.enum? ∧
    (applyVisible fields fd).1.type? = fd.1.type? ∧
    (applyVisible fields fd).1.range? = fd.1.range? := by
  refine ⟨?_, ?_, ?_⟩
  all_goals unfold applyVisible
  all_goals repeat' split
  all_goals simp [apply_ite SchemaFieldDefinition.enum?,
    apply_ite SchemaFieldDefinition.type?, apply_ite SchemaFieldDefinition.range?]

theorem applyVisibility_keeps (fields : List (String × Value))
    (fd : SchemaFieldDefinition × Bool) :
    (applyVisibility fields fd).1.enum? = fd.1.enum? ∧
    (applyVisibility fields fd).1.type? = fd.1.type? ∧
    (applyVisibility fields fd).1.range? = fd.1.range? := by
  refine ⟨?_, ?_, ?_⟩
  all_goals unfold applyVisibility
  all_goals repeat' split
  all_goals simp [apply_ite SchemaFieldDefinition.enum?,
    apply_ite SchemaFieldDefinition.type?, apply_ite SchemaFieldDefinition.range?]

theorem applyLabel_keeps (fields : List (String × Value))
    (fd : SchemaFieldDefinition × Bool) :
    (applyLabel fields fd).1.enum? = fd.1.enum? ∧
    (applyLabel fields fd).1.type? = fd.1.type? ∧
    (applyLabel fields fd).1.range? = fd.1.range? := by
  refine ⟨?_, ?_, ?_⟩
  all_goals unfold applyLabel
  all_goals repeat' split
  all_goals simp [apply_ite SchemaFieldDefinition.enum?,
    apply_ite SchemaFieldDefinition.type?, apply_ite SchemaFieldDefinition.range?]

theorem applyTitle_keeps (fields : List (String × Value))
    (fd : SchemaFieldDefinition × Bool) :
    (applyTitle fields fd).1.enum? = fd.1.enum? ∧
    (applyTitle fields fd).1.type? = fd.1.type? ∧
    (applyTitle fields fd).1.range? = fd.1.range? := by
  refine ⟨?_, ?_, ?_⟩
  all_goals unfold applyTitle
  all_goals repeat' split
  all_goals simp [apply_ite SchemaFieldDefinition.enum?,
    apply_ite SchemaFieldDefinition.type?, apply_ite SchemaFieldDefinition.range?]

theorem applyDescription_keeps (fields : List (String × Value))
    (fd : SchemaFieldDefinition × Bool) :
    (applyDescription fields fd).1.enum? = fd.1.enum? ∧
    (applyDescription fields fd).1.type? = fd.1.type? ∧
    (applyDescription fields fd).1.range? = fd.1.range? := by
  refine ⟨?_, ?_, ?_⟩
  all_goals unfold applyDescription
  all_goals repeat' split
  all_goals simp [apply_ite SchemaFieldDefinition.enum?,
    apply_ite SchemaFieldDefinition.type?, apply_ite SchemaFieldDefinition.range?]

theorem applyUnit_keeps (fields : List (String × Value))
    (fd : SchemaFieldDefinition × Bool) :
    (applyUnit fields fd).1.enum? = fd.1.enum? ∧
    (applyUnit fields fd).1.type? = fd.1.type? ∧
    (applyUnit fields fd).1.range? = fd.1.range? := by
  refine ⟨?_, ?_, ?_⟩
  all_goals unfold applyUnit
  all_goals repeat' split
  all_goals simp [apply_ite SchemaFieldDefinition.enum?,
    apply_ite SchemaFieldDefinition.type?, apply_ite SchemaFieldDefinition.range?]

theorem applyType_keeps (fields : List (String × Value))
    (fd : SchemaFieldDefinition × Bool) :
    (applyType fields fd).1.enum? = fd.1.enum? ∧
    (applyType fields fd).1.range? = fd.1.range? := by
  refine ⟨?_, ?_⟩
  all_goals unfold applyType
  all_goals repeat' split
  all_goals simp [apply_ite SchemaFieldDefinition.enum?,
    apply_ite SchemaFieldDefinition.type?, apply_ite SchemaFieldDefinition.range?]

theorem applyEnum_no_array {fields : List (String × Value)}
    (fd : SchemaFieldDefinition × Bool) (h : hasEnumArray fields = false) :
    applyEnum fields fd = fd := by
  unfold applyEnum
  unfold hasEnumArray at h
  split
  · rename_i es heq
    rw [heq] at h
    simp at h
  · rfl

theorem chain_enum_range_none (fields : List (String × Value)) :
    (applyType fields (applyUnit fields (applyDescription fields (applyTitle fields
      (applyLabel fields (applyVisibility fields (applyVisible fields
      (({} : SchemaFieldDefinition), false)))))))).1.enum? = none ∧
    (applyType fields (applyUnit fields (applyDescription fields (applyTitle fields
      (applyLabel fields (applyVisibility fields (applyVisible fields
      (({} : SchemaFieldDefinition), false)))))))).1.range? = none := by
  obtain ⟨e7, r7⟩ := applyType_keeps fields (applyUnit fields (applyDescription fields
    (applyTitle fields (applyLabel fields (applyVisibility fields
    (applyVisible fields (({} : SchemaFieldDefinition), false)))))))
  obtain ⟨e6, _, r6⟩ := applyUnit_keeps fields (applyDescription fields
    (applyTitle fields (applyLabel fields (applyVisibility fields
    (applyVisible fields (({} : SchemaFieldDefinition), false))))))
  obtain ⟨e5, _, r5⟩ := applyDescription_keeps fields
    (applyTitle fields (applyLabel fields (applyVisibility fields
    (applyVisible fields (({} : SchemaFieldDefinition), false)))))
  obtain ⟨e4, _, r4⟩ := applyTitle_keeps fields
    (applyLabel fields (applyVisibility fields
    (applyVisible fields (({} : SchemaFieldDefinition), false))))
  obtain ⟨e3, _, r3⟩ := applyLabel_keeps fields
    (applyVisibility fields (applyVisible fields
    (({} : SchemaFieldDefinition), false)))
  obtain ⟨e2, _, r2⟩ := applyVisibility_keeps fields
    (applyVisible fields (({} : SchemaFieldDefinition), false))
  obtain ⟨e1, _, r1⟩ := applyVisible_keeps fields
    (({} : SchemaFieldDefinition), false)
  constructor
  · rw [e7, e6, e5, e4, e3, e2, e1]
  · rw [r7, r6, r5, r4, r3, r2, r1]

/-- C8 counterexample: a choice list authored through a range array with
no declared type normalizes to a definition whose range carries the
options but whose enum stays unset, so the options are not mirrored. -/
theorem claim_C8_counterexample :
    ((normalizeFieldObject [("range", Value.arr [Value.str "low", Value.str "high"])]).map
      fun f => ((f.range?.bind SchemaRange.options?).isSome, f.enum?.isSome)) =
      some (true, false) := rfl

theorem applyRange_eq_of_absent {fields : List (String × Value)}
    (fd : SchemaFieldDefinition × Bool) (h : lookupField fields "range" = none) :
    applyRange fields fd = fd := by
  unfold applyRange
  rw [h]

theorem applyRange_eq_of_unnormalized {fields : List (String × Value)}
    (fd : SchemaFieldDefinition × Bool) {rawRange : Value}
    (h1 : lookupField fields "range" = some rawRange)
    (h2 : normalizeRange rawRange fd.1.type? = none) :
    applyRange fields fd = fd := by
  unfold applyRange
  simp only [h1, h2]

theorem applyRange_eq_of_normalized {fields : List (String × Value)}
    (fd : SchemaFieldDefinition × Bool) {rawRange : Value} {range : SchemaRange}
    (h1 : lookupField fields "range" = some rawRange)
    (h2 : normalizeRange rawRange fd.1.type? = some range) :
    applyRange fields fd =
      ((if ({ fd.1 with range? := some range } : SchemaFieldDefinition).enum?.isNone ∧
            ({ fd.1 with range? := some range } :
              SchemaFieldDefinition).type? = some SchemaValueType.enum ∧
            range.options?.isSome
        then { { fd.1 with range? := some range } with enum? := range.options? }
        else { fd.1 with range? := some range }), true) := by
  unfold applyRange
  simp only [h1, h2]

/-- C8 amended: when the candidate object authored no explicit enum array
and its normalized range resolved to an option list, the options are
mirrored into enum exactly when the declared type normalized to enum; with
any other or no normalized type the enum stays unset. -/
theorem claim_C8_enum_mirroring_amended :
    ∀ (fields : List (String × Value)) (f : SchemaFieldDefinition)
      (r : SchemaRange) (opts : List Value),
      normalizeFieldObject fields = some f →
      hasEnumArray fields = false →
      f.range? = some r → r.options? = some opts →
      (f.type? = some .enum → f.enum? = some opts) ∧
      (f.type? ≠ some .enum → f.enum? = none) := by
  intro fields f r opts hno hea hr ho
  unfold normalizeFieldObject at hno
  rw [applyEnum_no_array _ hea] at hno
  obtain ⟨hsE, hsR⟩ := chain_enum_range_none fields
  set st := applyType fields (applyUnit fields (applyDescription fields
    (applyTitle fields (applyLabel fields (applyVisibility fields
    (applyVisible fields (({} : SchemaFieldDefinition), false))))))) with hst
  cases hlr : lookupField fields "range" with
  | none =>
    rw [applyRange_eq_of_absent st hlr] at hno
    have hf : f = st.1 := by
      by_cases h2 : st.2 = true
      · rw [if_pos h2] at hno
        injection hno with hno
        exact hno.symm
      · rw [if_neg h2] at hno
        exact absurd hno (by simp)
    rw [hf, hsR] at hr
    exact absurd hr (by simp)
  | some rawRange =>
    cases hnr : normalizeRange rawRange st.1.type? with
    | none =>
      rw [applyRange_eq_of_unnormalized st hlr hnr] at hno
      have hf : f = st.1 := by
        by_cases h2 : st.2 = true
        · rw [if_pos h2] at hno
          injection hno with hno
          exact hno.symm
        · rw [if_neg h2] at hno
          exact absurd hno (by simp)
      rw [hf, hsR] at hr
      exact absurd hr (by simp)
    | some range =>
      rw [applyRange_eq_of_normalized st hlr hnr] at hno
      rw [if_pos rfl] at hno
      by_cases hcond : ({ st.1 with range? := some range } :
          SchemaFieldDefinition).enum?.isNone ∧
          ({ st.1 with range? := some range } :
            SchemaFieldDefinition).type? = some SchemaValueType.enum ∧
          range.options?.isSome
      · rw [if_pos hcond] at hno
        injection hno with hno
        have hfr : f.range? = some range := by rw [← hno]
        rw [hr] at hfr
        injection hfr with hfr
        constructor
        · intro _
          rw [← hno]
          show range.options? = some opts
          rw [← hfr]
          exact ho
        · intro ht
          exfalso
          apply ht
          rw [← hno]
          exact hcond.2.1
      · rw [if_neg hcond] at hno
        injection hno with hno
        have htyf : f.type? = st.1.type? := by rw [← hno]
        have henf : f.enum? = st.1.enum? := by rw [← hno]
        have hfr : f.range? = some range := by rw [← hno]
        rw [hr] at hfr
        injection hfr with hfr
        constructor
        · intro ht
          exfalso
          apply hcond
          refine ⟨?_, ?_, ?_⟩
          · show st.1.enum?.isNone = true
            rw [hsE]
            rfl
          · show st.1.type? = some SchemaValueType.enum
            rw [← htyf]
            exact ht
          · show range.options?.isSome = true
            rw [← hfr, ho]
            rfl
        · intro _
          rw [henf, hsE]

/-- Candidate object of the C8 witness: an enum-typed field whose choice
list is authored as a delimited range string. -/
def exC8fields : List (String × Value) :=
  [("type", Value.str "select"), ("range", Value.str "a|b")]

/-- Normalized definition of the C8 witness object. -/
def exC8fd : SchemaFieldDefinition := (normalizeFieldObject exC8fields).getD {}

/-- Normalized range of the C8 witness object. -/
def exC8range : SchemaRange := exC8fd.range?.getD {}

/-- Witness for the amended C8: with a declared enum type and a range
authored as a delimited string, the options are mirrored into enum. -/
theorem claim_C8_enum_mirroring_amended_witness :
    normalizeFieldObject exC8fields = some exC8fd ∧
    hasEnumArray exC8fields = false ∧
    exC8fd.range? = some exC8range ∧
    exC8range.options? = some [Value.str "a", Value.str "b"] ∧
    exC8fd.type? = some SchemaValueType.enum ∧
    exC8fd.enum? = some [Value.str "a", Value.str "b"] :=
  ⟨rfl, rfl, rfl, rfl, rfl,
    (claim_C8_enum_mirroring_amended exC8fields exC8fd exC8range
      [Value.str "a", Value.str "b"] rfl rfl rfl rfl).1 rfl⟩

theorem join_concat (l : List String) (s : String) :
    String.join (l ++ [s]) = String.join l ++ s := by
  show List.foldl (fun r s => r ++ s) "" (l ++ [s]) = _
  rw [List.foldl_append]
  rfl

theorem joinSegments_eq_join (segs : List String) :
    joinSegments segs = String.join (segs.mapIdx fun i segment =>
      if isBracketShape segment then segment
      else if isDigitsOnly segment then "[" ++ segment ++ "]"
      else if i = 0 then segment else "." ++ segment) := by
  unfold joinSegments
  by_cases h : segs.length = 0
  · rw [if_pos h]
    have hnil : segs = [] := List.length_eq_zero.mp h
    subst hnil
    rfl
  · rw [if_neg h]

theorem digits_not_bracket {key : String} (h : isDigitsOnly key = true) :
    isBracketShape key = false := by
  unfold isDigitsOnly at h
  unfold isBracketShape
  cases hd : key.data with
  | nil => rfl
  | cons c rest =>
    rw [hd] at h
    have hc : c.isDigit = true := by
      have := (Bool.and_eq_true _ _).mp h |>.2
      rw [List.all_eq_true] at this
      exact this c (by simp)
    have hne : c ≠ '[' := by
      rintro rfl
      exact absurd hc (by decide)
    simp [hne]

theorem joinSegments_concat_digits (pre : List String) (key : String)
    (h : isDigitsOnly key = true) :
    joinSegments (pre ++ [key]) = joinSegments pre ++ ("[" ++ key ++ "]") := by
  rw [joinSegments_eq_join, joinSegments_eq_join, List.mapIdx_concat, join_concat]
  rw [digits_not_bracket h, h]
  simp

theorem joinSegments_concat_bracket (pre : List String) (key : String)
    (h : isBracketShape key = true) :
    joinSegments (pre ++ [key]) = joinSegments pre ++ key := by
  rw [joinSegments_eq_join, joinSegments_eq_join, List.mapIdx_concat, join_concat]
  rw [h]
  simp

/-- Schema document authoring the first feature as nested objects. -/
def exNestedSchema : Value :=
  Value.obj [("features", Value.obj [("0", Value.obj [("label", Value.str "x")])])]

/-- Schema document authoring the first feature with a flat bracketed key. -/
def exFlatSchema : Value :=
  Value.obj [("features[0]", Value.obj [("label", Value.str "x")])]

/-- C10: digit-only schema keys become array indices.  A digit-only key is
emitted as a bracketed index with no dot separator, a key already written
as a bracketed index is emitted verbatim with no dot, and the nested and
the flat authoring of the same feature map to the same PathKey. -/
theorem claim_C10_digit_keys_become_indices :
    (∀ (pre : List String) (key : String), isDigitsOnly key = true →
      joinSegments (pre ++ [key]) = joinSegments pre ++ ("[" ++ key ++ "]")) ∧
    (∀ (pre : List String) (key : String), isBracketShape key = true →
      joinSegments (pre ++ [key]) = joinSegments pre ++ key) ∧
    (normalizeSchema exNestedSchema).map Prod.fst = ["features[0]"] ∧
    (normalizeSchema exFlatSchema).map Prod.fst = ["features[0]"] ∧
    (lookupEntry (normalizeSchema exNestedSchema) "features[0]").isSome = true ∧
    (lookupEntry (normalizeSchema exFlatSchema) "features[0]").isSome = true :=
  ⟨joinSegments_concat_digits, joinSegments_concat_bracket, rfl, rfl, rfl, rfl⟩

/-- Witness for C10 at concrete keys. -/
theorem claim_C10_digit_keys_become_indices_witness :
    isDigitsOnly "0" = true ∧ isBracketShape "[7]" = true ∧
    joinSegments (["features"] ++ ["0"]) =
      joinSegments ["features"] ++ ("[" ++ "0" ++ "]") ∧
    joinSegments (["a"] ++ ["[7]"]) = joinSegments ["a"] ++ "[7]" :=
  ⟨by decide, by decide,
    claim_C10_digit_keys_become_indices.1 ["features"] "0" (by decide),
    claim_C10_digit_keys_become_indices.2.1 ["a"] "[7]" (by decide)⟩

/-! Editor panel session operations, from editorPanel.ts. -/

/-- Result of a panel operation: success, or the posted error message. -/
inductive PanelResult where
  | ok
  | error (msg : String)
deriving DecidableEq

/-- Session state of the panel relevant to value editing: the document
tree, the baseline snapshot taken at load or save time, the set of
modified path keys (a JavaScript Set, modelled as a list in insertion
order, duplicate-free by construction) and the flattened schema mapping
when one is attached. -/
structure EditorState where
  data : Value
  originalData : Option Value
  modifiedPaths : List String
  schema : Option (List (String × SchemaFieldDefinition))

/-- Embedding of Set.add on the modified-path set. -/
def setAdd (l : List String) (k : String) : List String :=
  if k ∈ l then l else l ++ [k]

/-- Embedding of Set.delete on the modified-path set. -/
def setDelete (l : List String) (k : String) : List String := l.erase k

/-- JavaScript truthiness of a value. -/
def isTruthy : Value → Bool
  | .null => false
  | .bool b => b
  | .num (.fin q) => q != 0
  | .num .nan => false
  | .str s => !s.isEmpty
  | .arr _ => true
  | .obj _ => true

/-- Fraction digits of a rational in the half-open unit interval; the
fuel bounds the printed digits, ample for every value the panel handles. -/
def fracDigitsAux : Nat → ℚ → List Char
  | 0, _ => []
  | fuel + 1, q =>
    if q = 0 then []
    else
      let q10 := q * 10
      let d := q10.floor
      digitChar d.toNat :: fracDigitsAux fuel (q10 - mkRat d 1)

/-- Decimal rendering of a non-negative rational with a finite decimal
expansion (the shape of every number parsed from a decimal literal). -/
def jsNumRepr (q : ℚ) : String :=
  let neg := q < 0
  let mag := if neg then -q else q
  let ip := mag.floor.toNat
  let frac := mag - mkRat (Int.ofNat ip) 1
  let digits := if frac = 0 then natRepr ip
    else natRepr ip ++ "." ++ String.mk (fracDigitsAux 64 frac)
  if neg then "-" ++ digits else digits

mutual

/-- Embedding of the JavaScript String conversion on values: strings pass
through, booleans and null print their keywords, numbers print in
decimal, arrays join their stringified elements with commas (null
elements joining as empty), plain objects print the object tag. -/
def jsString : Value → String
  | .str s => s
  | .bool true => "true"
  | .bool false => "false"
  | .null => "null"
  | .num (.fin q) => jsNumRepr q
  | .num .nan => "NaN"
  | .arr items => jsStringList items
  | .obj _ => "[object Object]"

/-- Join of stringified array elements. -/
def jsStringList : List Value → String
  | [] => ""
  | v :: rest =>
    (match v with
     | .null => ""
     | w => jsString w) ++
    (match rest with
     | [] => ""
     | _ => "," ++ jsStringList rest)

end

/-- Embedding of Number.parseInt with radix ten: optional blanks and
sign, then the maximal leading digit run; no digits means NaN. -/
def parseIntJS (s : String) : Option Int :=
  let cs := s.data.dropWhile Char.isWhitespace
  let sign := match cs with
    | '-' :: _ => true
    | _ => false
  let cs1 := match cs with
    | '-' :: r => r
    | '+' :: r => r
    | _ => cs
  let ds := cs1.takeWhile Char.isDigit
  if ds.isEmpty then none
  else
    let n : Int := Int.ofNat (digitsVal ds)
    some (if sign then -n else n)

/-- Embedding of Number.parseFloat: optional blanks and sign, integer
digits, optional fraction, optional exponent; the longest valid prefix is
parsed and at least one digit must appear.  The special Infinity literals
are outside the model. -/
def parseFloatJS (s : String) : Option ℚ :=
  let cs := s.data.dropWhile Char.isWhitespace
  let sign := match cs with
    | '-' :: _ => true
    | _ => false
  let cs1 := match cs with
    | '-' :: r => r
    | '+' :: r => r
    | _ => cs
  let intDs := cs1.takeWhile Char.isDigit
  let cs2 := cs1.dropWhile Char.isDigit
  let fracDs := match cs2 with
    | '.' :: r => r.takeWhile Char.isDigit
    | _ => []
  let cs3 := match cs2 with
    | '.' :: r => r.dropWhile Char.isDigit
    | _ => cs2
  if intDs.isEmpty && fracDs.isEmpty then none
  else
    let base : ℚ := mkRat
      (digitsVal intDs * 10 ^ fracDs.length + digitsVal fracDs)
      (10 ^ fracDs.length)
    let exp : Int := match cs3 with
      | e :: r =>
        if e = 'e' ∨ e = 'E' then
          let esign := match r with
            | '-' :: _ => true
            | _ => false
          let r1 := match r with
            | '-' :: rr => rr
            | '+' :: rr => rr
            | _ => r
          let eds := r1.takeWhile Char.isDigit
          if eds.isEmpty then 0
          else if esign then -(Int.ofNat (digitsVal eds))
          else Int.ofNat (digitsVal eds)
        else 0
      | [] => 0
    let scaled := if 0 ≤ exp then base * mkRat (Int.ofNat (10 ^ exp.toNat)) 1
      else base * mkRat 1 (10 ^ (-exp).toNat)
    some (if sign then -scaled else scaled)

/-- Embedding of castValue: null or missing input is a cast error;
integer and number inputs parse the stringified value; booleans pass
through or match the lowercased keywords; everything else stringifies. -/
def castValue (value : Option Value) (type : SchemaValueType) : Option Value :=
  match value with
  | none => none
  | some .null => none
  | some v =>
    match type with
    | .integer => (parseIntJS (jsString v)).map fun i => Value.num (.fin (mkRat i 1))
    | .number => (parseFloatJS (jsString v)).map fun q => Value.num (.fin q)
    | .boolean =>
      match v with
      | .bool b => some (.bool b)
      | _ =>
        let lowered := jsToLower (jsString v)
        if lowered = "true" then some (.bool true)
        else if lowered = "false" then some (.bool false)
        else none
    | _ => some (.str (jsString v))

/-- Embedding of the JavaScript strict equality on the values compared by
the panel: primitives by value with NaN unequal to everything; container
operands are distinct references at every call site, hence unequal. -/
def jsStrictEq : Value → Value → Bool
  | .null, .null => true
  | .bool a, .bool b => a == b
  | .str a, .str b => a == b
  | .num (.fin a), .num (.fin b) => a == b
  | _, _ => false

/-- Embedding of arePrimitiveEqual: two numbers are equal when both are
NaN or strictly equal; anything else compares strictly. -/
def arePrimitiveEqual (a b : Value) : Bool :=
  match a, b with
  | .num x, .num y =>
    match x, y with
    | .nan, .nan => true
    | _, _ => jsStrictEq a b
  | _, _ => jsStrictEq a b

/-- Comparison of the new value against a possibly missing baseline value;
a missing baseline (undefined) is strictly unequal to any defined value. -/
def arePrimitiveEqualOpt (a : Value) (b : Option Value) : Bool :=
  match b with
  | some bv => arePrimitiveEqual a bv
  | none => false

/-- Range part of validateValue: a numeric value must respect whichever
bounds are present; non-numeric values and NaN pass. -/
def validateRange (value : Value) (range? : Option SchemaRange) : Bool :=
  match range?, value with
  | none, _ => true
  | some range, .num (.fin q) =>
    (match range.min? with
     | some m => !(decide (q < m))
     | none => true) &&
    (match range.max? with
     | some M => !(decide (M < q))
     | none => true)
  | some _, _ => true

/-- Embedding of validateValue: a non-empty enum requires strict equality
with a member; otherwise the numeric range is checked. -/
def validateValue (value : Value) (schemaEntry : Option SchemaFieldDefinition) :
    Bool :=
  match schemaEntry with
  | none => true
  | some entry =>
    match entry.enum? with
    | some es =>
      if es.length > 0 then es.any fun e => jsStrictEq e value
      else validateRange value entry.range?
    | none => validateRange value entry.range?

/-- Baseline value at the edited path, as computed by updateValue: the
baseline tree when truthy is read at the path (or taken whole at the
root), otherwise undefined. -/
def baselineValueOf (st : EditorState) (segments : List PathSegment) :
    Option Value :=
  match st.originalData with
  | none => none
  | some od =>
    if isTruthy od then
      if segments.isEmpty then some od else getValueAtPath od segments
    else none

/-- Embedding of JsonEditorPanel.updateValue: decode the path, look up
the schema entry, cast, validate, write (replacing the root for the empty
path), then mark or unmark the path as modified by comparing with the
baseline. -/
def updateValue (st : EditorState) (pathKey : String) (rawValue : Option Value)
    (valueType : SchemaValueType) : EditorState × PanelResult :=
  let segments := parsePathKey pathKey
  let schemaEntry := st.schema.bind fun s => lookupEntry s pathKey
  match castValue rawValue valueType with
  | none => (st, .error "Invalid value.")
  | some typedValue =>
    if !validateValue typedValue schemaEntry then
      (st, .error "Value is outside the allowed range.")
    else
      match (if segments.isEmpty then some typedValue
        else setValueAtPath st.data segments typedValue) with
      | none => (st, .error "Failed to update value.")
      | some newData =>
        let reverted := arePrimitiveEqualOpt typedValue (baselineValueOf st segments)
        ({ st with
            data := newData,
            modifiedPaths := if reverted then setDelete st.modifiedPaths pathKey
              else setAdd st.modifiedPaths pathKey }, .ok)

/-- Truncation toward zero of Math.trunc. -/
def jsTrunc (q : ℚ) : Int := if q < 0 then q.ceil else q.floor

/-- Kinds of array mutation requested by the webview. -/
inductive MutKind where
  | add
  | remove
  | clone
deriving DecidableEq

/-- Payload of an array mutation message. -/
structure ArrayMutationPayload where
  kind : MutKind
  index : Option JNum := none
  value : Option Value := none
  valueType : Option SchemaValueType := none

/-- Embedding of normalizeArrayIndex.  The length of an array is a
natural number, so the negative-length guard of the source never fires
and the result is always defined; missing or NaN indices default to the
append position for add and the last element otherwise, and any other
index is truncated toward zero and clamped into the valid range. -/
def normalizeArrayIndex (kind : MutKind) (length : Nat) (index : Option JNum) :
    Option Nat :=
  let maxAdd := length
  let maxExisting := length - 1
  match index with
  | none => some (if kind = .add then length else maxExisting)
  | some .nan => some (if kind = .add then length else maxExisting)
  | some (.fin q) =>
    let clamped := (max 0 (jsTrunc q)).toNat
    if kind = .add then some (if clamped > maxAdd then maxAdd else clamped)
    else some (if clamped > maxExisting then maxExisting else clamped)

/-- Embedding of deepClone: the JSON stringify and parse round-trip is
the identity on JSON trees. -/
def deepClone (v : Value) : Value := v

/-- Common tail of mutateArray: write the updated element list back at
the path (replacing the root when the path is empty) and mark the path
modified. -/
def commitArray (st : EditorState) (pathKey : String)
    (segments : List PathSegment) (working : List Value) :
    EditorState × PanelResult :=
  if segments.isEmpty then
    ({ st with
        data := .arr working,
        modifiedPaths := setAdd st.modifiedPaths pathKey }, .ok)
  else
    match setValueAtPath st.data segments (.arr working) with
    | none => (st, .error "Failed to apply array change.")
    | some newData =>
      ({ st with
          data := newData,
          modifiedPaths := setAdd st.modifiedPaths pathKey }, .ok)

/-- Embedding of JsonEditorPanel.mutateArray: resolve the target array,
normalize the requested index, then insert, remove or clone at it,
rejecting remove and clone on an empty array. -/
def mutateArray (st : EditorState) (pathKey : String)
    (mutation : ArrayMutationPayload) : EditorState × PanelResult :=
  let segments := parsePathKey pathKey
  let target := if segments.isEmpty then some st.data
    else getValueAtPath st.data segments
  match target with
  | some (.arr items) =>
    let working := items
    match normalizeArrayIndex mutation.kind working.length mutation.index with
    | none => (st, .error "Invalid index for array operation.")
    | some resolvedIndex =>
      match mutation.kind with
      | .add =>
        match mutation.valueType with
        | some vt =>
          match castValue mutation.value vt with
          | none => (st, .error "Failed to cast value for insertion.")
          | some insertedValue =>
            commitArray st pathKey segments
              (List.insertIdx resolvedIndex insertedValue working)
        | none =>
          let insertedValue := match mutation.value with
            | none => Value.null
            | some v => v
          commitArray st pathKey segments
            (List.insertIdx resolvedIndex insertedValue working)
      | .remove =>
        if working.length = 0 then (st, .error "Array is empty.")
        else commitArray st pathKey segments (working.eraseIdx resolvedIndex)
      | .clone =>
        if working.length = 0 then (st, .error "Array is empty.")
        else
          let sourceIdx := min (max 0 resolvedIndex) (working.length - 1)
          let cloneSource := working.getD sourceIdx Value.null
          commitArray st pathKey segments
            (List.insertIdx (sourceIdx + 1) (deepClone cloneSource) working)
  | _ => (st, .error "Selected node is not an array.")

/-- Hidden-by-entry test of the webview visibility check: the schema
entry at the path exists and sets visible to exactly false. -/
def hiddenByEntry (schema : List (String × SchemaFieldDefinition))
    (pathKey : String) : Bool :=
  match lookupEntry schema pathKey with
  | some entry => entry.visible? = some false
  | none => false

mutual

/-- Embedding of hasVisibleDescendant of the webview: null has no visible
descendant, an array or object node has one exactly when the per-child
visibility check accepts some element or own property, and any other
value has none. -/
def hasVisibleDescendant (sem : Bool)
    (schema : List (String × SchemaFieldDefinition)) :
    Value → List PathSegment → Bool
  | .arr items, segments => hasVisibleInArr sem schema segments 0 items
  | .obj fields, segments => hasVisibleInObj sem schema segments fields
  | _, _ => false

/-- Element loop of hasVisibleDescendant, carrying the element index;
each element is tested with the body of isVisibleNodeInternal at its
child path. -/
def hasVisibleInArr (sem : Bool)
    (schema : List (String × SchemaFieldDefinition))
    (segments : List PathSegment) : Nat → List Value → Bool
  | _, [] => false
  | i, v :: rest =>
    (if sem then true
     else if hiddenByEntry schema
        (buildPathKey (segments ++ [PathSegment.idx i])) then false
     else if v.isContainer then
       hasVisibleDescendant sem schema v (segments ++ [PathSegment.idx i])
     else true) ||
    hasVisibleInArr sem schema segments (i + 1) rest

/-- Property loop of hasVisibleDescendant over an object's own keys. -/
def hasVisibleInObj (sem : Bool)
    (schema : List (String × SchemaFieldDefinition))
    (segments : List PathSegment) : List (String × Value) → Bool
  | [] => false
  | (k, v) :: rest =>
    (if sem then true
     else if hiddenByEntry schema
        (buildPathKey (segments ++ [PathSegment.str k])) then false
     else if v.isContainer then
       hasVisibleDescendant sem schema v (segments ++ [PathSegment.str k])
     else true) ||
    hasVisibleInObj sem schema segments rest

end

/-- Embedding of isVisibleNodeInternal: in schema edit mode every node is
visible; an entry that explicitly sets visible to false hides the node; a
non-container is then visible; a container is visible exactly when it has
a visible descendant, at segments decoded from the path key when none are
supplied. -/
def isVisibleNodeInternal (sem : Bool)
    (schema : List (String × SchemaFieldDefinition)) (pathKey : String)
    (nodeValue : Value) (segments? : Option (List PathSegment)) : Bool :=
  if sem then true
  else if hiddenByEntry schema pathKey then false
  else if nodeValue.isContainer then
    let baseSegments := match segments? with
      | some s => s
      | none => parsePathKey pathKey
    hasVisibleDescendant sem schema nodeValue baseSegments
  else true

/-- Enum violation of a schema entry: a non-empty enum none of whose
members is strictly equal to the value. -/
def enumViolation (tv : Value) (entry : SchemaFieldDefinition) : Prop :=
  ∃ es, entry.enum? = some es ∧ es ≠ [] ∧ ∀ e ∈ es, jsStrictEq e tv = false

/-- Range violation of a schema entry with no usable enum: a finite
numeric value below the present minimum or above the present maximum. -/
def rangeViolation (tv : Value) (entry : SchemaFieldDefinition) : Prop :=
  (entry.enum? = none ∨ entry.enum? = some []) ∧
  ∃ q r, tv = .num (.fin q) ∧ entry.range? = some r ∧
    ((∃ m, r.min? = some m ∧ q < m) ∨ (∃ M, r.max? = some M ∧ M < q))

theorem validateValue_false_of_violation (tv : Value)
    (entry : SchemaFieldDefinition)
    (h : enumViolation tv entry ∨ rangeViolation tv entry) :
    validateValue tv (some entry) = false := by
  rcases h with ⟨es, hes, hne, hall⟩ | ⟨henum, q, r, htv, hr, hb⟩
  · simp only [validateValue, hes]
    rw [if_pos (List.length_pos.mpr hne)]
    simp only [List.any_eq_false]
    intro e he
    simp [hall e he]
  · subst htv
    have hrange : validateRange (Value.num (.fin q)) entry.range? = false := by
      unfold validateRange
      simp only [hr]
      rcases hb with ⟨m, hm, hlt⟩ | ⟨M, hM, hlt⟩
      · simp [hm, hlt]
      · simp [hM, hlt]
    rcases henum with h0 | h0
    · simpa only [validateValue, h0] using hrange
    · simpa only [validateValue, h0, List.length_nil] using hrange


theorem updateValue_ok_spec (st : EditorState) (pathKey : String)
    (rawValue : Option Value) (valueType : SchemaValueType)
    (st2 : EditorState) :
    updateValue st pathKey rawValue valueType = (st2, .ok) →
    ∃ tv, castValue rawValue valueType = some tv ∧
      validateValue tv (st.schema.bind fun s => lookupEntry s pathKey) = true ∧
      st2.originalData = st.originalData ∧ st2.schema = st.schema ∧
      st2.modifiedPaths =
        (if arePrimitiveEqualOpt tv (baselineValueOf st (parsePathKey pathKey))
         then setDelete st.modifiedPaths pathKey
         else setAdd st.modifiedPaths pathKey) ∧
      ((parsePathKey pathKey = [] ∧ st2.data = tv) ∨
        setValueAtPath st.data (parsePathKey pathKey) tv = some st2.data) := by
  intro hup
  cases hc : castValue rawValue valueType with
  | none =>
    simp only [updateValue, hc] at hup
    exact absurd (congrArg Prod.snd hup) (by simp)
  | some tv =>
    refine ⟨tv, rfl, ?_⟩
    simp only [updateValue, hc] at hup
    cases hv : validateValue tv (st.schema.bind fun s => lookupEntry s pathKey) with
    | false =>
      simp [hv] at hup
    | true =>
      refine ⟨rfl, ?_⟩
      simp only [hv, Bool.not_true] at hup
      by_cases hseg : parsePathKey pathKey = []
      · simp only [hseg, List.isEmpty_nil, if_true] at hup
        rw [if_neg (by simp)] at hup
        injection hup with h1 h2
        subst h1
        rw [hseg]
        exact ⟨rfl, rfl, rfl, Or.inl ⟨rfl, rfl⟩⟩
      · rw [if_neg (by simp)] at hup
        have hE : (parsePathKey pathKey).isEmpty = false := by
          cases h2 : parsePathKey pathKey with
          | nil => exact absurd h2 hseg
          | cons a l => rfl
        rw [hE, if_neg (by simp)] at hup
        cases hset : setValueAtPath st.data (parsePathKey pathKey) tv with
        | none =>
          rw [hset] at hup
          exact absurd (congrArg Prod.snd hup) (by simp)
        | some nd =>
          simp only [hset] at hup
          injection hup with h1 h2
          subst h1
          exact ⟨rfl, rfl, rfl, Or.inr rfl⟩

/-- C3: rejected updates are atomic. -/
theorem claim_C3_rejected_updates_atomic :
    ∀ (st : EditorState) (pathKey : String) (rawValue : Option Value)
      (valueType : SchemaValueType),
      (castValue rawValue valueType = none →
        updateValue st pathKey rawValue valueType = (st, .error "Invalid value.")) ∧
      (∀ tv entry, castValue rawValue valueType = some tv →
        (st.schema.bind fun s => lookupEntry s pathKey) = some entry →
        enumViolation tv entry ∨ rangeViolation tv entry →
        updateValue st pathKey rawValue valueType =
          (st, .error "Value is outside the allowed range.")) ∧
      (∀ st2 res, updateValue st pathKey rawValue valueType = (st2, res) →
        res ≠ .ok → st2 = st) ∧
      (∀ st2, updateValue st pathKey rawValue valueType = (st2, .ok) →
        ∃ tv, castValue rawValue valueType = some tv ∧
          validateValue tv (st.schema.bind fun s => lookupEntry s pathKey) = true ∧
          ((parsePathKey pathKey = [] ∧ st2.data = tv) ∨
            setValueAtPath st.data (parsePathKey pathKey) tv = some st2.data)) := by
  intro st pathKey rawValue valueType
  refine ⟨?_, ?_, ?_, ?_⟩
  · intro hc
    simp only [updateValue, hc]
  · intro tv entry hc hent hviol
    have hval : validateValue tv (st.schema.bind fun s => lookupEntry s pathKey) = false := by
      rw [hent]
      exact validateValue_false_of_violation tv entry hviol
    simp [updateValue, hc, hval]
  · intro st2 res hup hres
    cases hc : castValue rawValue valueType with
    | none =>
      simp only [updateValue, hc] at hup
      injection hup with h1 h2
      exact h1.symm
    | some tv =>
      simp only [updateValue, hc] at hup
      cases hv : validateValue tv (st.schema.bind fun s => lookupEntry s pathKey) with
      | false =>
        simp only [hv, Bool.not_false] at hup
        rw [if_pos trivial] at hup
        injection hup with h1 h2
        exact h1.symm
      | true =>
        simp only [hv, Bool.not_true] at hup
        rw [if_neg (by simp)] at hup
        cases hd : (if (parsePathKey pathKey).isEmpty = true then some tv
            else setValueAtPath st.data (parsePathKey pathKey) tv) with
        | none =>
          rw [hd] at hup
          injection hup with h1 h2
          exact h1.symm
        | some nd =>
          simp only [hd] at hup
          injection hup with h1 h2
          exact absurd h2.symm hres
  · intro st2 hup
    obtain ⟨tv, h1, h2, _, _, _, h6⟩ :=
      updateValue_ok_spec st pathKey rawValue valueType st2 hup
    exact ⟨tv, h1, h2, h6⟩

def exC3range : SchemaRange := { min? := some 1024, max? := some 65535 }

def exC3entry : SchemaFieldDefinition :=
  { type? := some .integer, range? := some exC3range }

def exC3schema : List (String × SchemaFieldDefinition) :=
  [("server.port", exC3entry)]

/-- A session holding a server.port value of 8080 under the port schema. -/
def exC3st : EditorState :=
  { data := .obj [("server", .obj [("port", .num (.fin 8080))])],
    originalData := some (.obj [("server", .obj [("port", .num (.fin 8080))])]),
    modifiedPaths := [],
    schema := some exC3schema }

/-- Witness for C3: updating server.port to 99 is rejected as out of
range (below the minimum 1024) and leaves the session untouched. -/
theorem claim_C3_rejected_updates_atomic_witness :
    updateValue exC3st "server.port" (some (.str "99")) .integer =
      (exC3st, .error "Value is outside the allowed range.") :=
  (claim_C3_rejected_updates_atomic exC3st "server.port" (some (.str "99"))
      .integer).2.1 (Value.num (.fin (mkRat 99 1))) exC3entry rfl rfl
    (Or.inr ⟨Or.inl rfl, mkRat 99 1, exC3range, rfl, rfl,
      Or.inl ⟨1024, rfl, by decide⟩⟩)

theorem mem_setAdd_self (l : List String) (k : String) : k ∈ setAdd l k := by
  unfold setAdd
  split
  · assumption
  · simp

/-- C5: a successful update marks the path modified exactly when the new
value is not primitive-equal to the baseline value at that path, and
unmarks it when it is. -/
theorem claim_C5_dirty_revert :
    ∀ (st : EditorState) (pathKey : String) (rawValue : Option Value)
      (valueType : SchemaValueType) (st2 : EditorState) (tv : Value),
      updateValue st pathKey rawValue valueType = (st2, .ok) →
      castValue rawValue valueType = some tv →
      st2.modifiedPaths =
        (if arePrimitiveEqualOpt tv (baselineValueOf st (parsePathKey pathKey))
         then setDelete st.modifiedPaths pathKey
         else setAdd st.modifiedPaths pathKey) ∧
      (st.modifiedPaths.Nodup →
        (pathKey ∈ st2.modifiedPaths ↔
          arePrimitiveEqualOpt tv (baselineValueOf st (parsePathKey pathKey)) = false)) := by
  intro st pathKey rawValue valueType st2 tv hup hc
  obtain ⟨tv', hc', -, -, -, hmp, -⟩ :=
    updateValue_ok_spec st pathKey rawValue valueType st2 hup
  rw [hc] at hc'
  injection hc' with htv
  subst htv
  refine ⟨hmp, fun hnd => ?_⟩
  rw [hmp]
  cases hb : arePrimitiveEqualOpt tv (baselineValueOf st (parsePathKey pathKey)) with
  | true =>
    rw [if_pos rfl]
    unfold setDelete
    simp only [List.Nodup.mem_erase_iff hnd]
    constructor
    · intro h
      exact absurd rfl h.1
    · intro h
      exact Bool.noConfusion h
  | false =>
    rw [if_neg (by simp)]
    exact ⟨fun _ => rfl, fun _ => mem_setAdd_self st.modifiedPaths pathKey⟩

/-- A session whose baseline holds 5 at the top-level property x. -/
def exC5st : EditorState :=
  { data := .obj [("x", .num (.fin 5))],
    originalData := some (.obj [("x", .num (.fin 5))]),
    modifiedPaths := [],
    schema := none }

/-- The session after updating x to 7. -/
def exC5st2 : EditorState :=
  (updateValue exC5st "x" (some (.str "7")) .integer).1

/-- Witness for C5: updating x to 7 marks x modified; updating it back to
the baseline value 5 removes the mark. -/
theorem claim_C5_dirty_revert_witness :
    "x" ∈ exC5st2.modifiedPaths ∧
    "x" ∉ ((updateValue exC5st2 "x" (some (.str "5")) .integer).1).modifiedPaths := by
  constructor
  · exact ((claim_C5_dirty_revert exC5st "x" (some (.str "7")) .integer exC5st2
      (Value.num (.fin (mkRat 7 1))) rfl rfl).2 (by decide)).mpr rfl
  · intro hmem
    have h := ((claim_C5_dirty_revert exC5st2 "x" (some (.str "5")) .integer
      ((updateValue exC5st2 "x" (some (.str "5")) .integer).1)
      (Value.num (.fin (mkRat 5 1))) rfl rfl).2 (by decide)).mp hmem
    exact absurd h (by decide)

theorem normalizeArrayIndex_eq_some (k : MutKind) (n : Nat) (i : Option JNum) :
    ∃ j, normalizeArrayIndex k n i = some j := by
  cases i with
  | none => exact ⟨_, rfl⟩
  | some jn =>
    cases jn with
    | nan => exact ⟨_, rfl⟩
    | fin q =>
      cases k <;> exact ⟨_, rfl⟩

theorem commitArray_ok (st : EditorState) (pathKey : String)
    (segments : List PathSegment) (working : List Value) (st2 : EditorState) :
    commitArray st pathKey segments working = (st2, .ok) →
    st2.modifiedPaths = setAdd st.modifiedPaths pathKey := by
  intro h
  unfold commitArray at h
  split at h
  · injection h with h1 h2
    rw [← h1]
  · split at h
    · exact absurd (congrArg Prod.snd h) (by simp)
    · injection h with h1 h2
      rw [← h1]

/-- C7: every successful array mutation marks the path modified, with no
revert-to-baseline comparison. -/
theorem claim_C7_array_mutations_mark_modified :
    ∀ (st : EditorState) (pathKey : String) (m : ArrayMutationPayload)
      (st2 : EditorState),
      mutateArray st pathKey m = (st2, .ok) →
      st2.modifiedPaths = setAdd st.modifiedPaths pathKey ∧
      pathKey ∈ st2.modifiedPaths := by
  intro st pathKey m st2 hup
  have hmp : st2.modifiedPaths = setAdd st.modifiedPaths pathKey := by
    simp only [mutateArray] at hup
    repeat' split at hup
    all_goals first
      | exact commitArray_ok _ _ _ _ _ hup
      | exact absurd (congrArg Prod.snd hup) (by simp)
  exact ⟨hmp, hmp ▸ mem_setAdd_self st.modifiedPaths pathKey⟩

/-- A session whose document holds an empty array and a baseline holding
a one-element array at xs. -/
def exC7st : EditorState :=
  { data := .obj [("xs", .arr [])],
    originalData := some (.obj [("xs", .arr [Value.num (.fin 1)])]),
    modifiedPaths := [],
    schema := none }

/-- Witness for C7: adding 1 to the empty array at xs yields exactly the
baseline content there, yet xs is marked modified. -/
theorem claim_C7_array_mutations_mark_modified_witness :
    "xs" ∈ ((mutateArray exC7st "xs"
        { kind := .add, value := some (.num (.fin 1)) }).1).modifiedPaths ∧
    getValueAtPath ((mutateArray exC7st "xs"
        { kind := .add, value := some (.num (.fin 1)) }).1).data
        [.str "xs"] =
      getValueAtPath (.obj [("xs", .arr [Value.num (.fin 1)])]) [.str "xs"] :=
  ⟨(claim_C7_array_mutations_mark_modified exC7st "xs"
      { kind := .add, value := some (.num (.fin 1)) }
      (mutateArray exC7st "xs"
        { kind := .add, value := some (.num (.fin 1)) }).1 rfl).2,
   rfl⟩

theorem ite_gt_eq_min (a b : Nat) : (if a > b then b else a) = min a b := by
  split <;> omega

/-- A session whose document root is a two-element array. -/
def exC6st : EditorState :=
  { data := .arr [Value.bool false, Value.bool true],
    originalData := none,
    modifiedPaths := [],
    schema := none }

/-- C6: array index normalization and the empty-array failure.  Missing
or NaN indices default to the append position for add and the last
element otherwise; numeric indices are truncated toward zero, clamped at
zero, and clamped to the valid range of the kind; remove and clone on an
empty array fail without touching the session; concretely, on a
two-element array an add requesting index 7 appends at the end and a
remove requesting index 7 removes the last element. -/
theorem claim_C6_array_index_normalization :
    (∀ (k : MutKind) (n : Nat),
      normalizeArrayIndex k n none =
        some (if k = .add then n else n - 1) ∧
      normalizeArrayIndex k n (some .nan) =
        some (if k = .add then n else n - 1)) ∧
    (∀ (k : MutKind) (n : Nat) (q : ℚ),
      normalizeArrayIndex k n (some (.fin q)) =
        some (min ((max 0 (jsTrunc q)).toNat)
          (if k = .add then n else n - 1))) ∧
    (∀ (st : EditorState) (pathKey : String) (m : ArrayMutationPayload),
      m.kind ≠ .add →
      (parsePathKey pathKey).isEmpty = false →
      getValueAtPath st.data (parsePathKey pathKey) = some (.arr []) →
      mutateArray st pathKey m = (st, .error "Array is empty.")) ∧
    normalizeArrayIndex .add 2 (some (.fin 7)) = some 2 ∧
    normalizeArrayIndex .remove 2 (some (.fin 7)) = some 1 ∧
    (mutateArray exC6st ""
        { kind := .add, index := some (.fin 7),
          value := some (Value.str "v") }).1.data =
      .arr [Value.bool false, Value.bool true, Value.str "v"] ∧
    (mutateArray exC6st ""
        { kind := .remove, index := some (.fin 7) }).1.data =
      .arr [Value.bool false] := by
  refine ⟨?_, ?_, ?_, rfl, rfl, rfl, rfl⟩
  · intro k n
    cases k <;> exact ⟨rfl, rfl⟩
  · intro k n q
    cases k with
    | add =>
      simp only [normalizeArrayIndex]
      rw [if_pos trivial, ite_gt_eq_min, if_pos trivial]
    | remove =>
      simp only [normalizeArrayIndex]
      rw [if_neg (by decide), ite_gt_eq_min, if_neg (by decide)]
    | clone =>
      simp only [normalizeArrayIndex]
      rw [if_neg (by decide), ite_gt_eq_min, if_neg (by decide)]
  · intro st pathKey m hk hE hT
    obtain ⟨j, hj⟩ := normalizeArrayIndex_eq_some m.kind 0 m.index
    simp only [mutateArray, hE]
    rw [if_neg (by simp)]
    simp only [hT]
    simp only [List.length_nil, hj]
    cases hkk : m.kind with
    | add => exact absurd hkk hk
    | remove => simp
    | clone => simp

/-- A session whose document holds an empty array at xs. -/
def exC6emptySt : EditorState :=
  { data := .obj [("xs", .arr [])],
    originalData := none,
    modifiedPaths := [],
    schema := none }

/-- Witness for C6: removing from the empty array at xs fails with the
empty-array error and returns the session unchanged. -/
theorem claim_C6_array_index_normalization_witness :
    mutateArray exC6emptySt "xs" { kind := .remove } =
      (exC6emptySt, .error "Array is empty.") :=
  claim_C6_array_index_normalization.2.2.1 exC6emptySt "xs" { kind := .remove }
    (by decide) rfl rfl

def exC4schema : List (String × SchemaFieldDefinition) :=
  [("a.b.c", { visible? := some false })]

def exC4ab : Value := .obj [("c", .str "x")]

def exC4a : Value := .obj [("b", exC4ab)]

def exC4aSib : Value := .obj [("b", exC4ab), ("d", .str "y")]

/-- C4: outside schema edit mode, an explicit visible flag of false hides
any node; an unhidden container is visible exactly when it has a visible
descendant; a leaf is visible exactly when not explicitly hidden; the
descendant check of an object or array tests each child with the node
visibility check at its child path; concretely, marking a.b.c invisible
hides a.b and a when b is the only child, while a visible sibling a.d
keeps a visible. -/
theorem claim_C4_visibility_pruning :
    (∀ (schema : List (String × SchemaFieldDefinition)) (pathKey : String)
        (v : Value) (segments : List PathSegment),
      hiddenByEntry schema pathKey = true →
      isVisibleNodeInternal false schema pathKey v (some segments) = false) ∧
    (∀ (schema : List (String × SchemaFieldDefinition)) (pathKey : String)
        (v : Value) (segments : List PathSegment),
      v.isContainer = true →
      hiddenByEntry schema pathKey = false →
      isVisibleNodeInternal false schema pathKey v (some segments) =
        hasVisibleDescendant false schema v segments) ∧
    (∀ (schema : List (String × SchemaFieldDefinition)) (pathKey : String)
        (v : Value) (segments : List PathSegment),
      v.isContainer = false →
      isVisibleNodeInternal false schema pathKey v (some segments) =
        !hiddenByEntry schema pathKey) ∧
    (∀ (sem : Bool) (schema : List (String × SchemaFieldDefinition))
        (segments : List PathSegment) (k : String) (v : Value)
        (rest : List (String × Value)),
      hasVisibleDescendant sem schema (.obj ((k, v) :: rest)) segments =
        (isVisibleNodeInternal sem schema
            (buildPathKey (segments ++ [PathSegment.str k])) v
            (some (segments ++ [PathSegment.str k])) ||
          hasVisibleInObj sem schema segments rest)) ∧
    (∀ (sem : Bool) (schema : List (String × SchemaFieldDefinition))
        (segments : List PathSegment) (i : Nat) (v : Value)
        (rest : List Value),
      hasVisibleInArr sem schema segments i (v :: rest) =
        (isVisibleNodeInternal sem schema
            (buildPathKey (segments ++ [PathSegment.idx i])) v
            (some (segments ++ [PathSegment.idx i])) ||
          hasVisibleInArr sem schema segments (i + 1) rest)) ∧
    isVisibleNodeInternal false exC4schema "a.b" exC4ab
      (some [.str "a", .str "b"]) = false ∧
    isVisibleNodeInternal false exC4schema "a" exC4a
      (some [.str "a"]) = false ∧
    isVisibleNodeInternal false exC4schema "a" exC4aSib
      (some [.str "a"]) = true := by
  refine ⟨?_, ?_, ?_, ?_, ?_, rfl, rfl, rfl⟩
  · intro schema pathKey v segments h
    simp [isVisibleNodeInternal, h]
  · intro schema pathKey v segments h1 h2
    simp [isVisibleNodeInternal, h1, h2]
  · intro schema pathKey v segments h1
    cases hb : hiddenByEntry schema pathKey <;>
      simp [isVisibleNodeInternal, h1, hb]
  · intro sem schema segments k v rest
    rfl
  · intro sem schema segments i v rest
    rfl

/-- Witness for C4: the leaf a.b.c under the example schema is visible
exactly when not explicitly hidden, and it is explicitly hidden. -/
theorem claim_C4_visibility_pruning_witness :
    (Value.str "x").isContainer = false ∧
    isVisibleNodeInternal false exC4schema "a.b.c" (Value.str "x")
        (some [.str "a", .str "b", .str "c"]) =
      !hiddenByEntry exC4schema "a.b.c" ∧
    hiddenByEntry exC4schema "a.b.c" = true :=
  ⟨rfl,
   claim_C4_visibility_pruning.2.2.1 exC4schema "a.b.c" (Value.str "x")
     [.str "a", .str "b", .str "c"] rfl,
   rfl⟩
